import Mathlib

set_option allowUnsafeReducibility true

attribute [semireducible] Rat.add Rat.mul Rat.sub Rat.inv

/-!
Verification development for the elliptical-process covariance engines of the
probability-rs repository (`src/nonparametric/elliptical_process/exact/mod.rs`
and `src/nonparametric/elliptical_process/kiss_love/mod.rs`).

The Rust code is shallowly embedded over exact rationals: every `f64` value
that the claims treat algebraically is modelled as a `ℚ`, and the quantities
whose non-finiteness the code inspects (the circulant-embedding eigenvalues
and the determinant square root) are modelled by `FloatQ`, a rational tagged
with a NaN alternative.  Fallible Rust code (`Result<_, DistributionError>`)
becomes `Except DistErr`.  A Rust panic (an out-of-bounds index or a
dimension-mismatched operator such as `Matrix * Matrix`) aborts the program
without producing a value; it is modelled by the dedicated error `DistErr.abort`
so that the embedding stays total.

External capabilities consumed by the engines (`opensrdk_linear_algebra`'s
`potrf`, `posv_cgm`, `sytrd_k`, `pttrf`, `pttrs`, `dipowf` and the circulant
eigenvalue extraction `cigv`) are exactly the contracts listed in §6 of the
specification; they are kept opaque as fields of a `LinAlgLib` record that all
embedded functions take as an argument, so every theorem quantifies over the
library implementation unless it instantiates a concrete one.  Deterministic
value-level matrix arithmetic (multiplication, transpose, Kronecker product,
sparse-times-dense products) is implemented concretely, since its meaning is
fixed by the library contract.

Matrices are stored column-major (`data` is the list of columns), matching the
LAPACK-backed representation of the external crate: `m[i]` in the Rust code
yields the `i`-th column slice, `Matrix::from(rows, elems)` rebuilds a matrix
from a column-major flattening, and `.vec()` is that flattening.
-/
/-- Decidable equality of `Except` values from decidable equality of the
error and value types. -/
instance instDecEqExcept {ε α : Type} [DecidableEq ε] [DecidableEq α] :
    DecidableEq (Except ε α) := fun x y =>
  match x, y with
  | .ok a, .ok b =>
    if h : a = b then .isTrue (by rw [h]) else .isFalse (fun hh => h (Except.ok.inj hh))
  | .error e, .error f =>
    if h : e = f then .isTrue (by rw [h]) else .isFalse (fun hh => h (Except.error.inj hh))
  | .ok _, .error _ => .isFalse (fun hh => Except.noConfusion hh)
  | .error _, .ok _ => .isFalse (fun hh => Except.noConfusion hh)

/-- Error kinds of the engines.  The Rust code distinguishes
`DistributionError::InvalidParameters(EllipticalProcessError::Empty)`,
`InvalidParameters(EllipticalProcessError::DimensionMismatch)` and
`Others(EllipticalProcessError::NaNContamination)`; the wrapping layers carry
no information, so the model flattens them into one inductive.  `libFailure`
stands for any error produced inside the external linear-algebra crate
(e.g. a dimension check of a Kronecker matrix-vector product), and `abort`
models a Rust panic. -/
inductive DistErr where
  | emptyData
  | dimensionMismatch
  | nanContamination
  | notPositiveDefinite
  | libFailure
  | abort
  deriving DecidableEq, Repr

/-- Model of an `f64` that is either an ordinary (rational) value or NaN.
Infinities never arise in the fragments the claims are about, so they are not
modelled.  The payload of a finite value is an exact rational. -/
inductive FloatQ where
  | fin (q : ℚ)
  | nan
  deriving DecidableEq, Repr

namespace FloatQ

/-- Model of `f64::is_finite`. -/
def isFinite : FloatQ → Bool
  | fin _ => true
  | nan => false

/-- NaN-propagating multiplication, as on IEEE floats restricted to
finite-or-NaN values. -/
def fmul : FloatQ → FloatQ → FloatQ
  | fin a, fin b => fin (a * b)
  | _, _ => nan

/-- Multiplication by a finite scalar. -/
def fscale (c : ℚ) : FloatQ → FloatQ
  | fin a => fin (c * a)
  | nan => nan

/-- Model of `Iterator::product` on `f64`: a fold of multiplications started
at `1.0`. -/
def fprod (l : List FloatQ) : FloatQ :=
  l.foldl fmul (fin 1)

/-- Model of `f64::sqrt`: NaN on NaN and on negative inputs.  On non-negative
inputs the exact real square root is generally irrational; `Rat.sqrt` stands
in for it.  No claim in this development depends on the numeric value of a
non-negative square root, only on the sign/NaN behaviour, which is modelled
faithfully. -/
def fsqrt : FloatQ → FloatQ
  | fin a => if a < 0 then nan else fin (Rat.sqrt a)
  | nan => nan

/-- The boolean comparison that the sort inside `det_kxx` effectively orders
by.  The Rust comparator is
`a.re.partial_cmp(&b.re).unwrap_or(if !a.re.is_finite() { Less } else { Greater })`:
two finite values compare normally, and a NaN compares `Less` than anything
(in particular NaNs are moved to the front of the sorted list). -/
def fleB : FloatQ → FloatQ → Bool
  | nan, _ => true
  | fin _, nan => false
  | fin a, fin b => a ≤ b

end FloatQ

/-- Insertion of `a` into a list sorted by `fleB`, after any elements that
compare below-or-equal to it. -/
def insertLe (a : FloatQ) : List FloatQ → List FloatQ
  | [] => [a]
  | b :: bs => if FloatQ.fleB b a then b :: insertLe a bs else a :: b :: bs

/-- Model of the `lambda.sort_by(...)` call of `det_kxx`.  Rust's slice sort
is a stable merge sort, but `fleB` is antisymmetric on the modelled values
(NaN below everything, finite values ordered as rationals), so the sorted
permutation is unique and this structurally recursive insertion sort returns
exactly the list the Rust sort produces. -/
def sortF (l : List FloatQ) : List FloatQ := l.foldl (fun acc x => insertLe x acc) []

/-- Dense matrix over exact rationals, stored column-major as in the external
LAPACK-backed crate: `data` is the list of columns.  The sparse interpolation
matrices `SparseMatrix` are modelled by the same type (sparsity is a storage
optimisation; the product semantics are identical). -/
structure Mat where
  rows : ℕ
  data : List (List ℚ)
  deriving DecidableEq, Repr

namespace Mat

/-- Number of columns. -/
def cols (A : Mat) : ℕ := A.data.length

/-- Entry in row `i`, column `j` (0 outside the stored ranges). -/
def entry (A : Mat) (i j : ℕ) : ℚ := (A.data.getD j []).getD i 0

/-- Well-formedness: every stored column has exactly `rows` entries. -/
def WF (A : Mat) : Prop := ∀ c ∈ A.data, c.length = A.rows

instance (A : Mat) : Decidable (WF A) := by unfold WF; infer_instance

/-- Column-major flattening, the model of `Matrix::vec`. -/
def vecOf (A : Mat) : List ℚ := A.data.flatten

/-- Model of `Vec::col_mat`: a vector as a one-column matrix. -/
def colMat (v : List ℚ) : Mat := ⟨v.length, [v]⟩

/-- Transpose.  Column `j` of the transpose is row `j` of the argument. -/
def tr (A : Mat) : Mat :=
  ⟨A.data.length, (List.range A.rows).map (fun r => A.data.map (fun c => c.getD r 0))⟩

/-- Matrix-vector product, written as the list of row sums. -/
def matVecL (A : Mat) (v : List ℚ) : List ℚ :=
  (List.range A.rows).map (fun i => ∑ j ∈ Finset.range A.data.length, A.entry i j * v.getD j 0)

/-- Matrix product (unchecked): each column of the result is the product of
`A` with the corresponding column of `B`. -/
def mmul (A B : Mat) : Mat := ⟨A.rows, B.data.map (fun c => A.matVecL c)⟩

/-- Checked matrix product: the Rust `Matrix * Matrix` operator aborts
(panics) when the inner dimensions disagree. -/
def mmulE (A B : Mat) : Except DistErr Mat :=
  if A.data.length = B.rows then .ok (A.mmul B) else .error .abort

/-- Checked matrix sum, aborting on shape mismatch like the Rust `+`. -/
def maddE (A B : Mat) : Except DistErr Mat :=
  if A.rows = B.rows ∧ A.data.length = B.data.length then
    .ok ⟨A.rows, List.zipWith (fun c d => List.zipWith (· + ·) c d) A.data B.data⟩
  else .error .abort

/-- Checked matrix difference, aborting on shape mismatch like the Rust `-`. -/
def msubE (A B : Mat) : Except DistErr Mat :=
  if A.rows = B.rows ∧ A.data.length = B.data.length then
    .ok ⟨A.rows, List.zipWith (fun c d => List.zipWith (· - ·) c d) A.data B.data⟩
  else .error .abort

/-- Scalar plus matrix (the Rust `f64 + Matrix`), added entrywise. -/
def scalarAdd (c : ℚ) (A : Mat) : Mat := ⟨A.rows, A.data.map (fun col => col.map (c + ·))⟩

/-- All-zero matrix, the model of `Matrix::new(rows, cols)`. -/
def zeros (r c : ℕ) : Mat := ⟨r, List.replicate c (List.replicate r 0)⟩

/-- Diagonal matrix from a list of diagonal entries. -/
def diagMat (d : List ℚ) : Mat :=
  ⟨d.length, (List.range d.length).map (fun j => (List.range d.length).map
    (fun i => if i = j then d.getD j 0 else 0))⟩

/-- Fuel-driven worker for `chunkCols` (structural recursion on the fuel so
that the kernel can evaluate it; the fuel is the list length, which always
suffices since every step consumes at least one element when `r ≠ 0`). -/
def chunkAux (r : ℕ) : ℕ → List ℚ → List (List ℚ)
  | 0, _ => []
  | _, [] => []
  | fuel + 1, x :: xs =>
    if r = 0 then [] else (x :: xs).take r :: chunkAux r fuel ((x :: xs).drop r)

/-- Split a column-major flattening back into columns of length `r`; the model
of `Matrix::from(rows, elems)`. -/
def chunkCols (r : ℕ) (l : List ℚ) : List (List ℚ) := chunkAux r l.length l

/-- Model of `Matrix::from(rows, elems)`: rebuild a matrix from a column-major
flattening. -/
def fromCm (r : ℕ) (l : List ℚ) : Mat := ⟨r, chunkCols r l⟩

/-- Product of the diagonal entries; the model of the external `trdet`
(determinant of a triangular matrix). -/
def prodDiag (A : Mat) : ℚ := ((List.range A.rows).map (fun i => A.entry i i)).prod

/-- Decidable lower-triangularity of the stored data: all entries strictly
above the diagonal vanish. -/
def LowerTriB (A : Mat) : Bool :=
  (List.range A.rows).all (fun i => (List.range A.data.length).all
    (fun j => i < j → A.entry i j = 0))

/-- Decidable non-vanishing (indeed positivity) of the diagonal. -/
def PosDiagB (A : Mat) : Bool := (List.range A.rows).all (fun i => 0 < A.entry i i)

end Mat

/-- Kronecker product of two matrices, column-major, first factor major:
entry `((iA, iB), (jA, jB))` is `A iA jA * B iB jB`. -/
def kron (A B : Mat) : Mat :=
  ⟨A.rows * B.rows,
   A.data.flatMap (fun ca => B.data.map (fun cb => ca.flatMap (fun a => cb.map (fun b => a * b))))⟩

/-- The Kronecker product of a list of factors (the model of
`KroneckerMatrices::prod`), materialised; the external crate computes with it
implicitly but the values agree. -/
def kronProd (ks : List Mat) : Mat := ks.foldl kron ⟨1, [[1]]⟩

/-- Total row count of a `KroneckerMatrices` (the model of
`KroneckerMatrices::rows`). -/
def kronRows (ks : List Mat) : ℕ := (ks.map Mat.rows).prod

/-- Total column count of a `KroneckerMatrices`. -/
def kronCols (ks : List Mat) : ℕ := (ks.map Mat.cols).prod

/-- Model of `KroneckerMatrices::vec_mul`: the structured matrix-vector
product.  The external routine returns `Err` when the vector length does not
match the operator dimension. -/
def kronVecMul (ks : List Mat) (v : List ℚ) : Except DistErr (List ℚ) :=
  if v.length = kronCols ks then .ok ((kronProd ks).matVecL v) else .error .libFailure

/-- Sequencing of a fallible step over a list, the model of Rust's
`collect::<Result<Vec<_>, _>>()`: the first error aborts, otherwise the list
of results is returned.  (A structurally recursive stand-in for `List.mapM`.) -/
def mapME {α β : Type} (f : α → Except DistErr β) : List α → Except DistErr (List β)
  | [] => .ok []
  | a :: as => do
    let b ← f a
    let bs ← mapME f as
    pure (b :: bs)

/-- Modelled from the spec: `ey` (in the elliptical-process module, absent
from src/) is the mean of the observed outputs `y`. -/
def ey (y : List ℚ) : ℚ := y.sum / y.length

/-- Modelled from the spec: `y_ey` (absent from src/) is the centered
observation vector `y − ȳ`. -/
def yEy (y : List ℚ) (e : ℚ) : List ℚ := y.map (fun yi => yi - e)

/-- The opaque external linear-algebra capabilities of §6 of the spec, one
field per routine the engines call.  All embedded functions receive a
`LinAlgLib`, so theorems hold for every implementation of the contract unless
they pin a concrete one.
  - `potrf`: Cholesky factorisation of a symmetric positive-definite matrix.
  - `posvCgm`: conjugate-gradient solve from a matrix-vector closure, a
    right-hand side and an iteration cap.
  - `sytrdK`: bounded-rank Lanczos-style tridiagonalisation from a closure,
    target size and rank cap, returning a basis and a tridiagonal matrix.
  - `pttrf`/`pttrs`: pivoted tridiagonal LDLᵗ factor and solve (the factor's
    bidiagonal carrier is materialised as a `Mat`).
  - `dipowf`: entrywise power of a diagonal matrix, carried as its diagonal.
  - `cigv`: eigenvalues (real parts, possibly NaN) of the circulant embedding
    of a Toeplitz matrix given by its first column. -/
structure LinAlgLib where
  potrf : Mat → Except DistErr Mat
  posvCgm : (List ℚ → Except DistErr (List ℚ)) → List ℚ → ℕ → Except DistErr (List ℚ)
  sytrdK : ℕ → ℕ → (List ℚ → Except DistErr (List ℚ)) → Except DistErr (Mat × Mat)
  pttrf : Mat → Except DistErr (Mat × List ℚ)
  pttrs : Mat → List ℚ → Mat → Except DistErr Mat
  dipowf : List ℚ → ℚ → List ℚ
  cigv : List ℚ → List FloatQ

/-- The hard-coded conjugate-gradient / Lanczos iteration cap `K` of
`kiss_love/mod.rs`. -/
def KCap : ℕ := 100

/-- A structured (convolutional) input point: the list of its parts, each part
a feature vector.  This models the `Convolutable` capability: `parts_len` is
the number of parts and `data_len` the feature dimension. -/
def CPoint : Type := List (List ℚ)

/-- Model of `Convolutable::parts_len`. -/
def partsLen (x : CPoint) : ℕ := x.length

/-- Model of `Convolutable::data_len`: the feature dimension of the first
part (0 when there is no part). -/
def dataLen (x : CPoint) : ℕ := (x.headD []).length

/-- Modelled from the spec: the inducing `Grid` type (grid.rs is absent from
src/) is an ordered Cartesian product of per-dimension inducing coordinates
(§3); only the per-axis coordinate lists are carried. -/
structure Grid where
  axes : List (List ℚ)
  deriving DecidableEq, Repr

/-- Evenly spaced rational coordinates from `lo` to `hi` (`c` of them). -/
def linspace (lo hi : ℚ) (c : ℕ) : List ℚ :=
  (List.range c).map (fun j => lo + (hi - lo) * j / (c - 1))

/-- Modelled from the spec: `Grid::from` (absent from src/) builds, for each
feature dimension, an axis of the requested number of coordinates covering the
range of that feature over all parts of all inputs (§4.3: an axis-aligned
lattice discretising the input space). -/
def gridFrom (x : List CPoint) (points : List ℕ) : Except DistErr Grid :=
  .ok ⟨(List.range points.length).map (fun i =>
    let vals := x.flatMap (fun pt => pt.map (fun part => part.getD i 0))
    linspace (vals.foldr min 0) (vals.foldr max 0) (points.getD i 0))⟩

/-- The full lattice of grid points, Cartesian product of the axes in the
Kronecker-compatible order (first axis major). -/
def gridPoints (u : Grid) : List (List ℚ) :=
  u.axes.foldl (fun acc ax => acc.flatMap (fun p => ax.map (fun a => p ++ [a]))) [[]]

/-- Modelled from the spec: `Grid::kuu` (absent from src/) evaluates the
inducing covariance as a Kronecker product of per-dimension dense factors
(§4.4 step 4), one factor per axis, from the per-dimension kernel `ker` (the
kernel with its hyperparameters already applied). -/
def gridKuu (ker : ℚ → ℚ → ℚ) (u : Grid) : List Mat :=
  u.axes.map (fun ax => ⟨ax.length, ax.map (fun b => ax.map (fun a => ker a b))⟩)

/-- Index of the first minimum of a list of rationals (0 on the empty list). -/
def idxOfMin (l : List ℚ) : ℕ :=
  (l.foldl (fun st v =>
    match st with
    | (bestIdx, bestVal, cur) =>
      if v < bestVal then (cur, v, cur + 1) else (bestIdx, bestVal, cur + 1))
    ((0 : ℕ), l.headD 0, (0 : ℕ))).1

/-- Squared Euclidean distance of two feature vectors. -/
def sqDist (p q : List ℚ) : ℚ := (List.zipWith (fun a b => (a - b) ^ 2) p q).sum

/-- Modelled from the spec: `Grid::interpolation_weight` (absent from src/)
produces one sparse m-by-n matrix per part whose column for input `i` carries
local interpolation coefficients over grid points near that input's part,
summing to 1 (§4.3; the concrete local scheme is unspecified there, so the
model places weight 1 on the nearest grid point). -/
def interpWeight (u : Grid) (x : List CPoint) : Except DistErr (List Mat) :=
  let gps := gridPoints u
  let m := gps.length
  .ok ((List.range (partsLen (x.headD []))).map (fun pi =>
    ⟨m, x.map (fun xi =>
      let target := (xi.getD pi [])
      let near := idxOfMin (gps.map (fun gp => sqDist gp target))
      (List.range m).map (fun r => if r = near then (1 : ℚ) else 0))⟩))

/-- Base parameter bundle for the exact engine: kernel (with hyperparameters
already applied), input list and noise scale (§3 BaseParams). -/
structure ExactBase (α : Type) where
  ker : α → α → ℚ
  x : List α
  sigma : ℚ

/-- Base parameter bundle for the structured engine: the per-dimension kernel
of the convolutional/Kronecker construction, structured inputs and noise
scale. -/
structure KissBase where
  ker : ℚ → ℚ → ℚ
  x : List CPoint
  sigma : ℚ

/-- Modelled from the spec: `kernel_matrix` (absent from src/) evaluates the
dense kernel matrix by applying the kernel to every pair of inputs (§4.2). -/
def kernelMatrix {α : Type} (ker : α → α → ℚ) (x1 x2 : List α) : Mat :=
  ⟨x1.length, x2.map (fun b => x1.map (fun a => ker a b))⟩

/-- The covariance Σ = K_XX + σ²·I of the exact engine. -/
def sigmaOf {α : Type} (base : ExactBase α) : Mat :=
  let kxx := kernelMatrix base.ker base.x base.x
  ⟨kxx.rows, (List.range kxx.data.length).map (fun j =>
    (List.range kxx.rows).map (fun i =>
      kxx.entry i j + if i = j then base.sigma ^ 2 else 0))⟩

/-- Forward substitution, first stage of the two triangular solves of `potrs`:
entry `i` of the result solves row `i` of `L·w = b` given the previous
entries. -/
def fwdAux (L : Mat) (b : List ℚ) : ℕ → List ℚ
  | 0 => []
  | i + 1 =>
    let w := fwdAux L b i
    w ++ [(b.getD i 0 - ∑ j ∈ Finset.range i, L.entry i j * w.getD j 0) / L.entry i i]

/-- Forward solve of the lower-triangular system `L·w = b`. -/
def fwdSolve (L : Mat) (b : List ℚ) : List ℚ := fwdAux L b L.rows

/-- Reversal of a square matrix through its antidiagonal: entry `(i, j)`
becomes entry `(n−1−i, n−1−j)`.  An upper-triangular matrix flips to a
lower-triangular one, which reduces backward substitution to `fwdSolve`. -/
def flipM (A : Mat) : Mat := ⟨A.rows, (A.data.map List.reverse).reverse⟩

/-- Backward solve of the upper-triangular system `U·x = c`, implemented as a
forward solve of the flipped system. -/
def bwdSolve (U : Mat) (c : List ℚ) : List ℚ :=
  let n := U.rows
  let w := fwdSolve (flipM U) ((List.range n).map (fun j => c.getD (n - 1 - j) 0))
  (List.range n).map (fun j => w.getD (n - 1 - j) 0)

/-- Model of the external `potrs` on a single column: the spec (§4.2)
describes `apply_inverse` of the exact engine as two triangular solves through
the stored Cholesky factor `L`, i.e. the solve of `L·Lᵗ·u = b`. -/
def potrsCol (L : Mat) (b : List ℚ) : List ℚ := bwdSolve (Mat.tr L) (fwdSolve L b)

/-- Model of the external `potrs` on a matrix right-hand side, column by
column. -/
def potrsM (L : Mat) (V : Mat) : Mat := ⟨L.rows, V.data.map (potrsCol L)⟩

/-- The exact covariance engine `ExactEllipticalProcessParams`
(exact/mod.rs lines 26-36): base bundle, mean vector, Cholesky factor,
solved vector Σ⁻¹(y−ȳ) and Mahalanobis distance. -/
structure ExactEngine (α : Type) where
  base : ExactBase α
  mu : List ℚ
  lsigma : Mat
  sigmaInvY : Mat
  mahalanobisSq : ℚ

/-- Embedding of `ExactEllipticalProcessParams::new` (exact/mod.rs lines
43-73): validate, build Σ = K_XX + σ²I, Cholesky-factor it through the
external `potrf`, solve for the centered observations and store the
Mahalanobis distance. -/
def exactNew {α : Type} (lib : LinAlgLib) (base : ExactBase α) (y : List ℚ) :
    Except DistErr (ExactEngine α) :=
  let n := y.length
  if n = 0 then .error .emptyData
  else if ¬n = base.x.length then .error .dimensionMismatch
  else do
    let e := ey y
    let mu := List.replicate base.x.length e
    let sigma := sigmaOf base
    let lsigma ← lib.potrf sigma
    let yEyM := Mat.colMat (yEy y e)
    let sigmaInvY := potrsM lsigma yEyM
    let mahalanobisSq := (Mat.mmul (Mat.tr yEyM) sigmaInvY).entry 0 0
    pure ⟨base, mu, lsigma, sigmaInvY, mahalanobisSq⟩

/-- Embedding of the exact engine's `sigma_inv_mul` (exact/mod.rs lines
95-97): two triangular solves through the stored factor. -/
def exactSigmaInvMul {α : Type} (e : ExactEngine α) (v : Mat) : Except DistErr Mat :=
  .ok (potrsM e.lsigma v)

/-- Embedding of the exact engine's `sigma_det_sqrt` (exact/mod.rs lines
99-101): the triangular determinant `trdet` of the stored factor, i.e. the
product of its diagonal. -/
def exactSigmaDetSqrt {α : Type} (e : ExactEngine α) : ℚ := e.lsigma.prodDiag

/-- Embedding of the exact engine's `lsigma_cols` (exact/mod.rs lines
103-105). -/
def exactLsigmaCols {α : Type} (e : ExactEngine α) : ℕ := e.lsigma.cols

/-- Embedding of `KissLoveEllipticalProcessParams::wx_u` (kiss_love/mod.rs
lines 167-183): reject zero parts or zero feature dimension with the
`EmptyData` error, then give every one of the `data_len` grid axes
`max(n / 2^data_len, 2)` inducing points and build the grid and the per-part
interpolation weights.  Indexing `x[0]` on an empty input would panic. -/
def wxU (x : List CPoint) : Except DistErr (List Mat × Grid) :=
  match x with
  | [] => .error .abort
  | x0 :: _ => do
    let n := x.length
    let pl := partsLen x0
    let dl := dataLen x0
    if pl = 0 ∨ dl = 0 then .error .emptyData
    else do
      let points := List.replicate dl (Nat.max (n / 2 ^ dl) 2)
      let u ← gridFrom x points
      let wx ← interpWeight u x
      pure (wx, u)

/-- Embedding of `KissLoveEllipticalProcessParams::wxt_kuu_wx_mul`
(kiss_love/mod.rs lines 185-201): the implicit operator
v ↦ Σ_parts Wᵖᵗ·K_uu·(Wᵖ·v), summed over parts from a zero accumulator.
Note that no σ²·v term appears (the file-level comment of
kiss_love/mod.rs line 18 reads `todo: add sigma.powi(2) I`), and the function
does not even receive the noise scale. -/
def wxtKuuWxMul (v : List ℚ) (wx : List Mat) (kuu : List Mat) :
    Except DistErr (List ℚ) := do
  let terms ← mapME (fun wxpi => do
    let vM := Mat.colMat v
    let wxV ← Mat.mmulE wxpi vM
    let kuuWxV ← kronVecMul kuu wxV.vecOf
    let res ← Mat.mmulE (Mat.tr wxpi) (Mat.colMat kuuWxV)
    pure res.vecOf) wx
  terms.foldlM (fun a b => do
    let s ← Mat.maddE (Mat.colMat a) (Mat.colMat b)
    pure s.vecOf) (List.replicate v.length 0)

/-- The per-dimension circulant-embedding spectra taken inside `det_kxx`:
for each Kronecker factor, the eigenvalues of the circulant embedding of its
first column, truncated to the factor dimension
(`kp.embedded_circulant().cigv().1[..kp.dim()]`). -/
def spectraOf (lib : LinAlgLib) (kuu : List Mat) : List (List FloatQ) :=
  kuu.map (fun kp =>
    let c := kp.data.headD []
    (lib.cigv c).take c.length)

/-- Kronecker product of the per-dimension eigenvalue column vectors
(`KroneckerMatrices::new(lambda).prod().vec()`), with NaN-propagating
multiplication. -/
def kronVecF (ls : List (List FloatQ)) : List FloatQ :=
  ls.foldl (fun acc v => acc.flatMap (fun a => v.map (fun b => FloatQ.fmul a b)))
    [FloatQ.fin 1]

/-- Embedding of `KissLoveEllipticalProcessParams::det_kxx` (kiss_love/mod.rs
lines 204-246): per-factor Toeplitz/circulant spectra, Kronecker product,
sort by the NaN-first comparator, reject a non-finite minimum with
`NaNContamination`, then drop the `m − n` smallest eigenvalues and return the
product of the retained ones scaled by `n/m`.  `ToeplitzMatrix::new` fails on
an empty first column; the slice `&lambda[m - n ..]` panics when `m < n`
(usize underflow) or when the offset exceeds the length. -/
def detKxx (lib : LinAlgLib) (kuu : List Mat) (wx : List Mat) :
    Except DistErr FloatQ :=
  match wx with
  | [] => .error .abort
  | w0 :: _ => do
    let m := w0.rows
    let n := w0.data.length
    let _ ← mapME (fun kp =>
      let c := kp.data.headD []
      if ¬c.length = (c.drop 1).length + 1 then .error DistErr.libFailure
      else if ¬c.length ≤ (lib.cigv c).length then .error DistErr.abort
      else Except.ok c) kuu
    let lambda := kronVecF (spectraOf lib kuu)
    let sorted := sortF lambda
    match sorted with
    | [] => .error .abort
    | l0 :: _ =>
      if !l0.isFinite then .error .nanContamination
      else if m < n then .error .abort
      else if sorted.length < m - n then .error .abort
      else
        let retained := sorted.drop (m - n)
        .ok (FloatQ.fprod (retained.map (fun lmd => FloatQ.fscale ((n : ℚ) / (m : ℚ)) lmd)))

/-- The structured covariance engine `KissLoveEllipticalProcessParams`
(kiss_love/mod.rs lines 19-35): base bundle, mean, grid, low-rank correction
matrices `a` and `s`, per-part weights, Kronecker inducing covariance and its
per-factor Cholesky, approximate √det(K_XX) and Mahalanobis distance. -/
structure KissEngine where
  base : KissBase
  mu : List ℚ
  u : Grid
  a : List Mat
  s : List Mat
  wx : List Mat
  kuu : List Mat
  lkuu : List Mat
  kxxDetSqrt : FloatQ
  mahalanobisSq : ℚ

/-- Embedding of `KissLoveEllipticalProcessParams::new` (kiss_love/mod.rs
lines 42-165): validation, mean, grid and weights, Kronecker K_uu and its
per-factor Cholesky, the construction-time conjugate-gradient solve for `u`,
the per-part low-rank corrections `a`, the two bounded-rank Lanczos passes
producing the per-part square-root factors `s`, the circulant-embedding
determinant and the Mahalanobis distance. -/
def kissLoveNew (lib : LinAlgLib) (base : KissBase) (y : List ℚ) :
    Except DistErr KissEngine :=
  let n := y.length
  if n = 0 then .error .emptyData
  else if ¬n = base.x.length then .error .dimensionMismatch
  else do
    let e := ey y
    let mu := List.replicate base.x.length e
    let (wx, u) ← wxU base.x
    let kuu := gridKuu base.ker u
    let lkuu ← mapME lib.potrf kuu
    let m := kronRows kuu
    let k := Nat.min n KCap
    let p := wx.length
    let yEyM := Mat.colMat (yEy y e)
    let op := fun v => wxtKuuWxMul v wx kuu
    let uvec ← lib.posvCgm op yEyM.vecOf KCap
    let uMat := Mat.colMat uvec
    let a ← mapME (fun pi => do
      let wxpi := wx.getD pi ⟨0, []⟩
      let wv ← Mat.mmulE wxpi uMat
      let av ← kronVecMul kuu wv.vecOf
      pure (Mat.colMat av)) (List.range p)
    let (q, t) ← lib.sytrdK n k op
    let (l, d) ← lib.pttrf t
    let s ← mapME (fun pi => do
      let wxpi := wx.getD pi ⟨0, []⟩
      let wxQ ← Mat.mmulE wxpi q
      let rcols ← mapME (fun ki => kronVecMul kuu (wxQ.data.getD ki [])) (List.range k)
      let r := Mat.fromCm m rcols.flatten
      let (q2, t2) ← lib.sytrdK m KCap (fun v => do
        let kv ← kronVecMul kuu v
        let rv ← Mat.mmulE r (Mat.colMat v)
        let pv ← lib.pttrs l d rv
        let rtp ← Mat.mmulE (Mat.tr r) (Mat.colMat pv.vecOf)
        let diff ← Mat.msubE (Mat.colMat kv) rtp
        pure diff.vecOf)
      let (l2, d2) ← lib.pttrf t2
      let d2sqrt := lib.dipowf d2 (1 / 2)
      let l2prime ← Mat.mmulE l2 (Mat.diagMat d2sqrt)
      Mat.mmulE q2 l2prime) (List.range p)
    let kxxDet ← detKxx lib kuu wx
    let kxxDetSqrt := FloatQ.fsqrt kxxDet
    let mahalanobisSq := (Mat.mmul (Mat.tr yEyM) uMat).entry 0 0
    pure ⟨base, mu, u, a, s, wx, kuu, lkuu, kxxDetSqrt, mahalanobisSq⟩

/-- Embedding of the structured engine's `sigma_inv_mul` (kiss_love/mod.rs
lines 271-288): an independent bounded conjugate-gradient solve against the
stored operator for every column of `v`, reassembled through
`Matrix::from(v.rows(), ...)`.  The stored low-rank factors `a` and `s` are
not consulted. -/
def kissSigmaInvMul (lib : LinAlgLib) (e : KissEngine) (v : Mat) :
    Except DistErr Mat := do
  let op := fun w => wxtKuuWxMul w e.wx e.kuu
  let sols ← mapME (fun i => lib.posvCgm op (v.data.getD i []) KCap)
    (List.range v.data.length)
  pure (Mat.fromCm v.rows sols.flatten)

/-- Embedding of the structured engine's `sigma_det_sqrt` (kiss_love/mod.rs
lines 290-292): it merely returns the stored `kxx_det_sqrt` value; its return
type offers no error channel. -/
def kissSigmaDetSqrt (e : KissEngine) : FloatQ := e.kxxDetSqrt

/-- Embedding of the structured engine's `lsigma_cols` (kiss_love/mod.rs
lines 294-296): the length of the stored mean vector. -/
def kissLsigmaCols (e : KissEngine) : ℕ := e.mu.length

/-- Embedding of the structured engine's `sample` (kiss_love/mod.rs lines
298-311): apply the stored per-factor Kronecker Cholesky to `z`, project back
through every part's Wᵖᵗ, sum the parts from an n-by-1 zero matrix and add
the mean. -/
def kissSample (e : KissEngine) (z : List ℚ) : Except DistErr (List ℚ) := do
  let n := e.mu.length
  let lkuuZ ← kronVecMul e.lkuu z
  let lkuuZM := Mat.colMat lkuuZ
  let wxtLkuuZ ← e.wx.foldlM (fun acc wxpi => do
    let tv ← Mat.mmulE (Mat.tr wxpi) lkuuZM
    Mat.maddE acc tv) (Mat.zeros n 1)
  pure ((Mat.scalarAdd (e.mu.getD 0 0) wxtLkuuZ).vecOf)

/-- Embedding of the structured engine's `mahalanobis_squared` accessor
(kiss_love/mod.rs lines 319-321). -/
def kissMahalanobisSq (e : KissEngine) : ℚ := e.mahalanobisSq

/-- A concrete instantiation of the external library contract used to
evaluate the engines on small inputs: the Cholesky stub returns its argument,
the conjugate-gradient stub returns the right-hand side, the Lanczos stub
returns all-ones factors of the requested rank (rank 1 above rank 2, keeping
the evaluation small), the tridiagonal factor stub returns its argument with
a unit diagonal, the tridiagonal solve stub returns the right-hand side, the
diagonal power stub returns the diagonal and the circulant-eigenvalue stub
reports the spectrum [-1, 3]. -/
def dummyLib : LinAlgLib :=
  ⟨fun M => .ok M,
   fun _ b _ => .ok b,
   fun nn kk _ =>
     if kk ≤ 2 then .ok (⟨nn, List.replicate kk (List.replicate nn 1)⟩,
                          ⟨kk, List.replicate kk (List.replicate kk 1)⟩)
     else .ok (⟨nn, [List.replicate nn 1]⟩, ⟨1, [[1]]⟩),
   fun tm => .ok (tm, List.replicate tm.rows 1),
   fun _ _ rhs => .ok rhs,
   fun dd _ => dd,
   fun _ => [FloatQ.fin (-1), FloatQ.fin 3]⟩

/-- A concrete per-dimension kernel: covariance 2 on the diagonal, 1 off it. -/
def kerC : ℚ → ℚ → ℚ := fun a b => if a = b then 2 else 1

/-- Structured base bundle with two scalar inputs 0 and 4 (one part each). -/
def kissBase2 : KissBase := ⟨kerC, [[[0]], [[4]]], 1⟩

/-- Structured base bundle with a single scalar input 0 (one part). -/
def kissBase1 : KissBase := ⟨kerC, [[[0]]], 1⟩

/-- Exact base bundle with kernel k(a,b) = 2(a+b) on inputs 0 and 1 and unit
noise, so that Σ = K_XX + I = [[1,2],[2,5]] has the exact rational Cholesky
factor [[1,0],[2,1]]. -/
def exBase1 : ExactBase ℚ := ⟨fun a b => 2 * (a + b), [0, 1], 1⟩

/-- The lower-triangular Cholesky factor of `sigmaOf exBase1`, column-major. -/
def lFac1 : Mat := ⟨2, [[1, 2], [0, 1]]⟩

/-- A library instantiation whose conjugate-gradient stub applies the operator
it is handed to the right-hand side once (so that query results genuinely
flow through the implicit operator), with the other stubs as in `dummyLib`. -/
def cgLib : LinAlgLib :=
  ⟨fun M => .ok M,
   fun op b _ => op b,
   fun nn kk _ =>
     if kk ≤ 2 then .ok (⟨nn, List.replicate kk (List.replicate nn 1)⟩,
                          ⟨kk, List.replicate kk (List.replicate kk 1)⟩)
     else .ok (⟨nn, [List.replicate nn 1]⟩, ⟨1, [[1]]⟩),
   fun tm => .ok (tm, List.replicate tm.rows 1),
   fun _ _ rhs => .ok rhs,
   fun dd _ => dd,
   fun _ => [FloatQ.fin (-1), FloatQ.fin 3]⟩

/-- A concrete structured engine used to probe which stored fields the query
operations read. -/
def kissEngA : KissEngine :=
  ⟨kissBase2, [0], ⟨[]⟩, [⟨1, [[1]]⟩], [⟨1, [[1]]⟩], [⟨1, [[1]]⟩], [⟨1, [[2]]⟩],
   [⟨1, [[1]]⟩], FloatQ.fin 1, 0⟩

/-- The same engine as `kissEngA` except for different stored low-rank
correction matrices `a` and `s`. -/
def kissEngB : KissEngine :=
  ⟨kissBase2, [0], ⟨[]⟩, [⟨1, [[7]]⟩], [⟨1, [[8]]⟩], [⟨1, [[1]]⟩], [⟨1, [[2]]⟩],
   [⟨1, [[1]]⟩], FloatQ.fin 1, 0⟩

/-- A library instantiation identical to `dummyLib` except that the circulant
eigenvalue extraction reports the spectrum [NaN, 5]. -/
def nanLib : LinAlgLib :=
  ⟨fun M => .ok M,
   fun _ b _ => .ok b,
   fun nn kk _ =>
     if kk ≤ 2 then .ok (⟨nn, List.replicate kk (List.replicate nn 1)⟩,
                          ⟨kk, List.replicate kk (List.replicate kk 1)⟩)
     else .ok (⟨nn, [List.replicate nn 1]⟩, ⟨1, [[1]]⟩),
   fun tm => .ok (tm, List.replicate tm.rows 1),
   fun _ _ rhs => .ok rhs,
   fun dd _ => dd,
   fun _ => [FloatQ.nan, FloatQ.fin 5]⟩

/-- One 2-by-2 Kronecker factor, so the spectrum has m = 2 eigenvalues. -/
def kuu3 : List Mat := [⟨2, [[2, 1], [1, 2]]⟩]

/-- One 2-by-1 interpolation weight matrix: m = 2 inducing points, n = 1
observation, so `det_kxx` drops the m − n = 1 smallest eigenvalue. -/
def wx3 : List Mat := [⟨2, [[1, 0]]⟩]

/-- The exact engine built from `exBase1` and y = [1, 3] under the stub
library (whose Cholesky stub returns its argument). -/
def exEng1 : ExactEngine ℚ := (exactNew dummyLib exBase1 [1, 3]).toOption.get (by decide)

/-- The structured engine built from `kissBase2` and y = [1, 3] under the
stub library. -/
def kissEng2 : KissEngine := (kissLoveNew dummyLib kissBase2 [1, 3]).toOption.get (by decide)

/-- The stub library with a Cholesky stub that returns the exact rational
factor of `sigmaOf exBase1`. -/
def cholLib : LinAlgLib :=
  ⟨fun _ => .ok lFac1,
   fun _ b _ => .ok b,
   fun nn kk _ =>
     if kk ≤ 2 then .ok (⟨nn, List.replicate kk (List.replicate nn 1)⟩,
                          ⟨kk, List.replicate kk (List.replicate kk 1)⟩)
     else .ok (⟨nn, [List.replicate nn 1]⟩, ⟨1, [[1]]⟩),
   fun tm => .ok (tm, List.replicate tm.rows 1),
   fun _ _ rhs => .ok rhs,
   fun dd _ => dd,
   fun _ => [FloatQ.fin (-1), FloatQ.fin 3]⟩

/-- The exact engine whose stored factor is the true Cholesky factor
[[1,0],[2,1]] of Σ = K_XX + I = [[1,2],[2,5]] over `exBase1`. -/
def exEngChol : ExactEngine ℚ := (exactNew cholLib exBase1 [1, 3]).toOption.get (by decide)

/-- Determinant of a (square, by hypothesis) matrix through mathlib's dense
determinant on `Fin`-indexed matrices — the independent dense determinant
routine of the spec's testable property. -/
def detSq (A : Mat) : ℚ :=
  (Matrix.of (fun i j : Fin A.rows => A.entry i j)).det

/-- The comparator of the sort in `det_kxx` is transitive. -/
theorem FloatQ.fleB_trans (a b c : FloatQ) : fleB a b → fleB b c → fleB a c := by
  cases a <;> cases b <;> cases c <;> simp [FloatQ.fleB] <;> exact le_trans

/-- The comparator of the sort in `det_kxx` is total. -/
theorem FloatQ.fleB_total (a b : FloatQ) : fleB a b || fleB b a := by
  cases a <;> cases b <;> simp [FloatQ.fleB] <;> exact le_total _ _

/-- C1: the implicit operator applied by `wxt_kuu_wx_mul` carries no σ²·v
term.  On the one-part instance with W = [1] (1-by-1), K_uu = [2] and
v = [3], the operator returns [6] = Wᵗ·K_uu·W·v, not [6 + σ²·3] = [9] for the
noise scale σ = 1 — the structured conjugate-gradient solves therefore run
against Σ_parts Wᵖᵗ·K_uu·Wᵖ, without the additive noise term the claim and
the spec describe (the code's own comment at kiss_love/mod.rs line 18 reads
`todo: add sigma.powi(2) I`). -/
theorem c1_operator_lacks_noise_term :
    wxtKuuWxMul [3] [⟨1, [[1]]⟩] [⟨1, [[2]]⟩] = Except.ok [6] ∧
    ([6] : List ℚ) ≠ [6 + 1 ^ 2 * 3] := by
  constructor
  · rfl
  · decide

/-- C2: a validly constructed structured engine whose `draw`/`sample` fails
on a standard-normal vector sized by its own reported dimension.  With the
single scalar observation x = [[0]], y = [5], the grid receives 2 inducing
points, so the stored Kronecker Cholesky is 2-dimensional, while
`lsigma_cols()` — the value `MultivariateNormal::sample` uses to size z —
returns `mu.len()` = 1; `sample` then applies the 2-dimensional Kronecker
operator to the 1-vector and the structured matrix-vector product rejects
it (a vector of the Kronecker dimension 2 would be accepted, as the last
conjunct shows). -/
theorem c2_sample_rejects_reported_dimension :
    (kissLoveNew dummyLib kissBase1 [5]).map
      (fun e => (kissLsigmaCols e,
                 kissSample e (List.replicate (kissLsigmaCols e) 1),
                 (kissSample e [1, 1]).isOk))
      = Except.ok (1, Except.error DistErr.libFailure, true) := by
  decide

/-- C10: on the two-observation instance whose circulant-embedding spectrum
[-1, 3] is entirely finite, construction succeeds, the determinant
approximation is the negative value -3, the stored `kxx_det_sqrt` is the NaN
square root of that negative number, and `sigma_det_sqrt()` silently returns
it — its return type has no error channel at all. -/
theorem c10_negative_det_silent_nan :
    (kissLoveNew dummyLib kissBase2 [1, 3]).map
      (fun e => (kissSigmaDetSqrt e, detKxx dummyLib e.kuu e.wx))
      = Except.ok (FloatQ.nan, Except.ok (FloatQ.fin (-3))) ∧
    (kronVecF (spectraOf dummyLib [⟨2, [[2, 1], [1, 2]]⟩])).all FloatQ.isFinite = true := by
  constructor
  · decide
  · decide

/-- C4 (counterexample): two engines that differ only in their stored
low-rank factors `a` and `s` produce identical `apply_inverse` results, even
under a conjugate-gradient routine that genuinely applies the implicit
operator — so the result of `sigma_inv_mul` does not depend on `a` and
`s`. -/
theorem c4_counterexample_a_s_unused :
    kissEngA.a ≠ kissEngB.a ∧ kissEngA.s ≠ kissEngB.s ∧
    kissSigmaInvMul cgLib kissEngA (Mat.colMat [3])
      = kissSigmaInvMul cgLib kissEngB (Mat.colMat [3]) ∧
    kissSigmaInvMul cgLib kissEngA (Mat.colMat [3]) = Except.ok (Mat.colMat [6]) := by
  refine ⟨by decide, by decide, rfl, by decide⟩

/-- C4 (amended): the per-part low-rank matrices `a` and `s` are computed and
stored at construction, but the query-time `sigma_inv_mul` never reads them:
replacing the stored `a` and `s` of any engine by arbitrary matrices leaves
the result of `apply_inverse` unchanged for every library implementation and
every input — `sigma_inv_mul` rebuilds its answer from the stored `wx` and
`kuu` alone via fresh conjugate-gradient solves. -/
theorem c4_sigma_inv_mul_independent_of_a_s
    (lib : LinAlgLib) (e : KissEngine) (a2 s2 : List Mat) (v : Mat) :
    kissSigmaInvMul lib
      ⟨e.base, e.mu, e.u, a2, s2, e.wx, e.kuu, e.lkuu, e.kxxDetSqrt, e.mahalanobisSq⟩ v
      = kissSigmaInvMul lib e v := rfl

/-- C5 (amended): constructing either engine with an empty observation vector
returns the `EmptyData` error, and constructing with a nonempty `y` whose
length differs from the length of the input list returns the
`DimensionMismatch` error; the emptiness check runs first, so an empty `y`
yields `EmptyData` even when the lengths also disagree.  In both cases the
error is returned before any computation and no engine value is exposed. -/
theorem c5_construction_validation :
    (∀ (α : Type) (lib : LinAlgLib) (base : ExactBase α),
      exactNew lib base [] = Except.error DistErr.emptyData) ∧
    (∀ (α : Type) (lib : LinAlgLib) (base : ExactBase α) (y : List ℚ),
      y ≠ [] → ¬y.length = base.x.length →
      exactNew lib base y = Except.error DistErr.dimensionMismatch) ∧
    (∀ (lib : LinAlgLib) (base : KissBase),
      kissLoveNew lib base [] = Except.error DistErr.emptyData) ∧
    (∀ (lib : LinAlgLib) (base : KissBase) (y : List ℚ),
      y ≠ [] → ¬y.length = base.x.length →
      kissLoveNew lib base y = Except.error DistErr.dimensionMismatch) := by
  refine ⟨fun α lib base => rfl, fun α lib base y hy hlen => ?_,
          fun lib base => rfl, fun lib base y hy hlen => ?_⟩
  · unfold exactNew
    rw [if_neg (fun h => hy (List.length_eq_zero.mp h)), if_pos hlen]
  · unfold kissLoveNew
    rw [if_neg (fun h => hy (List.length_eq_zero.mp h)), if_pos hlen]

/-- C5 (counterexample): with an empty `y` against a nonempty input list the
lengths differ, yet construction returns `EmptyData`, not the
`DimensionMismatch` the claim assigns to every length disagreement — the
emptiness check takes precedence. -/
theorem c5_counterexample_empty_beats_mismatch :
    ([] : List ℚ).length ≠ exBase1.x.length ∧
    exactNew dummyLib exBase1 ([] : List ℚ) = Except.error DistErr.emptyData ∧
    DistErr.emptyData ≠ DistErr.dimensionMismatch := ⟨by decide, rfl, by decide⟩

/-- C5 (witness): the amended validation behaviour at concrete inputs. -/
theorem c5_validation_witness :
    exactNew dummyLib exBase1 ([] : List ℚ) = Except.error DistErr.emptyData ∧
    exactNew dummyLib exBase1 [1] = Except.error DistErr.dimensionMismatch ∧
    kissLoveNew dummyLib kissBase2 [] = Except.error DistErr.emptyData ∧
    kissLoveNew dummyLib kissBase2 [5] = Except.error DistErr.dimensionMismatch :=
  ⟨c5_construction_validation.1 ℚ dummyLib exBase1,
   c5_construction_validation.2.1 ℚ dummyLib exBase1 [1] (by decide) (by decide),
   c5_construction_validation.2.2.1 dummyLib kissBase2,
   c5_construction_validation.2.2.2 dummyLib kissBase2 [5] (by decide) (by decide)⟩

/-- C9: grid/interpolation-weight construction fails with `EmptyData` exactly
when the first input has zero parts or zero feature dimension; otherwise it
succeeds and every one of the `data_len` grid axes receives
`max(⌊n / 2^data_len⌋, 2)` inducing points — in particular at least 2 per
axis. -/
theorem c9_wx_u_grid_sizing :
    (∀ (x0 : CPoint) (xs : List CPoint), partsLen x0 = 0 ∨ dataLen x0 = 0 →
      wxU (x0 :: xs) = Except.error DistErr.emptyData) ∧
    (∀ (x0 : CPoint) (xs : List CPoint), 0 < partsLen x0 → 0 < dataLen x0 →
      (wxU (x0 :: xs)).map (fun wxu =>
          (wxu.2.axes.length,
           wxu.2.axes.all (fun ax =>
             ax.length = Nat.max ((x0 :: xs).length / 2 ^ dataLen x0) 2 ∧ 2 ≤ ax.length)))
        = Except.ok (dataLen x0, true)) := by
  constructor
  · intro x0 xs h
    unfold wxU
    simp only [if_pos h]
  · intro x0 xs hp hd
    have hcond : ¬(partsLen x0 = 0 ∨ dataLen x0 = 0) := by omega
    unfold wxU gridFrom interpWeight
    simp only [if_neg hcond, Except.bind, Except.map, bind, pure]
    refine congrArg Except.ok (Prod.ext ?_ ?_)
    · simp
    · simp only [List.all_eq_true, List.mem_map, List.mem_range]
      rintro ax ⟨i, hi, rfl⟩
      simp only [List.length_replicate] at hi
      simp only [linspace, List.length_map, List.length_range, decide_eq_true_eq]
      simp [List.getD_eq_getElem?_getD, List.getElem?_replicate_of_lt hi, Nat.le_max_right,
        Function.comp_def, List.map_const', List.sum_replicate, smul_eq_mul]

/-- Inserting into a list is a permutation of consing. -/
theorem insertLe_perm (a : FloatQ) (l : List FloatQ) :
    List.Perm (insertLe a l) (a :: l) := by
  induction l with
  | nil => rfl
  | cons b bs ih =>
    by_cases h : FloatQ.fleB b a
    · simpa [insertLe, h] using ((ih.cons b).trans (List.Perm.swap a b bs))
    · simp [insertLe, h]

/-- The modelled sort permutes its input. -/
theorem sortF_perm (l : List FloatQ) : List.Perm (sortF l) l := by
  suffices h : ∀ (l acc : List FloatQ),
      List.Perm (l.foldl (fun acc x => insertLe x acc) acc) (acc ++ l) by
    simpa using h l []
  intro l
  induction l with
  | nil => simp
  | cons x xs ih =>
    intro acc
    have h1 := ih (insertLe x acc)
    have h2 : List.Perm (insertLe x acc ++ xs) ((x :: acc) ++ xs) :=
      (insertLe_perm x acc).append_right xs
    have h3 : List.Perm ((x :: acc) ++ xs) ((acc ++ [x]) ++ xs) :=
      (List.perm_append_singleton x acc).symm.append_right xs
    have h4 : (acc ++ [x]) ++ xs = acc ++ x :: xs := by simp
    exact h1.trans (h2.trans (h4 ▸ h3))

/-- Membership in an inserted list. -/
theorem mem_insertLe {x a : FloatQ} {l : List FloatQ} :
    x ∈ insertLe a l ↔ x = a ∨ x ∈ l := by
  rw [(insertLe_perm a l).mem_iff, List.mem_cons]

/-- Inserting preserves sortedness with respect to `fleB`. -/
theorem insertLe_pairwise {a : FloatQ} {l : List FloatQ}
    (h : l.Pairwise (fun p q => FloatQ.fleB p q = true)) :
    (insertLe a l).Pairwise (fun p q => FloatQ.fleB p q = true) := by
  induction l with
  | nil => simp [insertLe]
  | cons b bs ih =>
    rcases List.pairwise_cons.mp h with ⟨hb, hbs⟩
    by_cases hba : FloatQ.fleB b a
    · rw [insertLe, if_pos hba]
      refine List.pairwise_cons.mpr ⟨?_, ih hbs⟩
      intro x hx
      rcases mem_insertLe.mp hx with rfl | hx
      · exact hba
      · exact hb x hx
    · rw [insertLe, if_neg hba]
      have hab : FloatQ.fleB a b := by
        rcases Bool.or_eq_true_iff.mp (FloatQ.fleB_total b a) with h1 | h1
        · exact absurd h1 hba
        · exact h1
      refine List.pairwise_cons.mpr ⟨?_, h⟩
      intro x hx
      rcases List.mem_cons.mp hx with rfl | hx
      · exact hab
      · exact FloatQ.fleB_trans a b x hab (hb x hx)

/-- The modelled sort produces a `fleB`-sorted list. -/
theorem sortF_pairwise (l : List FloatQ) :
    (sortF l).Pairwise (fun p q => FloatQ.fleB p q = true) := by
  suffices h : ∀ (l acc : List FloatQ),
      acc.Pairwise (fun p q => FloatQ.fleB p q = true) →
      (l.foldl (fun acc x => insertLe x acc) acc).Pairwise
        (fun p q => FloatQ.fleB p q = true) from h l [] (by simp)
  intro l
  induction l with
  | nil => intro acc h; simpa using h
  | cons x xs ih => intro acc h; exact ih (insertLe x acc) (insertLe_pairwise h)

/-- The Kronecker product of nonempty eigenvalue vectors is nonempty. -/
theorem kronVecF_ne_nil {ls : List (List FloatQ)} (h : ∀ s ∈ ls, s ≠ []) :
    kronVecF ls ≠ [] := by
  suffices haux : ∀ (ls : List (List FloatQ)) (acc : List FloatQ),
      (∀ s ∈ ls, s ≠ []) → acc ≠ [] →
      ls.foldl (fun acc v => acc.flatMap (fun a => v.map (fun b => FloatQ.fmul a b))) acc ≠ []
    from haux ls [FloatQ.fin 1] h (by simp)
  intro ls
  induction ls with
  | nil => intro acc _ hacc; simpa using hacc
  | cons v vs ih =>
    intro acc hall hacc
    refine ih _ (fun s hs => hall s (List.mem_cons_of_mem v hs)) ?_
    have hv : v ≠ [] := hall v (List.mem_cons_self v vs)
    obtain ⟨a, as, rfl⟩ := List.exists_cons_of_ne_nil hacc
    obtain ⟨b, bs, rfl⟩ := List.exists_cons_of_ne_nil hv
    simp [List.flatMap_cons]

/-- Mapping an everywhere-succeeding step over a list succeeds. -/
theorem mapME_ok_of {α β : Type} {f : α → Except DistErr β} {l : List α}
    (h : ∀ a ∈ l, ∃ b, f a = Except.ok b) : ∃ bs, mapME f l = Except.ok bs := by
  induction l with
  | nil => exact ⟨[], rfl⟩
  | cons a as ih =>
    obtain ⟨b, hb⟩ := h a (List.mem_cons_self a as)
    obtain ⟨bs, hbs⟩ := ih (fun a ha => h a (List.mem_cons_of_mem _ ha))
    exact ⟨b :: bs, by simp only [mapME, hb, hbs]; rfl⟩

/-- Binding a successful `Except` value applies the continuation. -/
theorem exBindOk {ε α β : Type} (a : α) (f : α → Except ε β) :
    (Except.ok a : Except ε α) >>= f = f a := rfl

/-- C3 (counterexample): with spectrum [NaN, 5], m = 2 and n = 1, the NaN is
the smallest eigenvalue and is dropped by the boundary trim, so the smallest
RETAINED eigenvalue is the finite 5 — yet `det_kxx` raises `NaNContamination`,
because the code checks the global minimum `lambda[0]` before dropping the
(m − n) smallest. -/
theorem c3_counterexample_nan_among_dropped :
    detKxx nanLib kuu3 wx3 = Except.error DistErr.nanContamination ∧
    ((sortF (kronVecF (spectraOf nanLib kuu3))).drop (2 - 1)).headD FloatQ.nan
      = FloatQ.fin 5 ∧
    FloatQ.isFinite (FloatQ.fin 5) = true := ⟨by decide, by decide, rfl⟩

/-- C3 (amended): provided the per-factor Toeplitz first columns are nonempty
and the external eigenvalue extraction returns at least one eigenvalue per
grid point (so that the spectrum is well formed), `det_kxx` fails with
`NaNContamination` if and only if SOME eigenvalue of the full Kronecker
spectrum — retained or dropped — is non-finite: the check inspects the global
minimum of the sorted spectrum before the (m − n) smallest eigenvalues are
dropped, so a NaN among the dropped eigenvalues also fails. -/
theorem c3_det_kxx_nan_check_precedes_drop
    (lib : LinAlgLib) (kuu : List Mat) (w0 : Mat) (wxs : List Mat)
    (hC : ∀ kp ∈ kuu, (kp.data.headD []) ≠ [])
    (hG : ∀ kp ∈ kuu, (kp.data.headD []).length ≤ (lib.cigv (kp.data.headD [])).length) :
    detKxx lib kuu (w0 :: wxs) = Except.error DistErr.nanContamination ↔
      ∃ a ∈ kronVecF (spectraOf lib kuu), a.isFinite = false := by
  have hck : ∀ kp ∈ kuu, ∃ b,
      (fun kp : Mat =>
        let c := kp.data.headD []
        if ¬c.length = (c.drop 1).length + 1 then Except.error DistErr.libFailure
        else if ¬c.length ≤ (lib.cigv c).length then Except.error DistErr.abort
        else Except.ok c) kp = Except.ok b := by
    intro kp hkp
    have h1 : (kp.data.headD []).length = ((kp.data.headD []).drop 1).length + 1 := by
      have := List.length_pos.mpr (hC kp hkp)
      simp only [List.length_drop]
      omega
    refine ⟨kp.data.headD [], ?_⟩
    simp only []
    rw [if_neg (fun hn => hn h1), if_neg (fun hn => hn (hG kp hkp))]
  obtain ⟨bs, hbs⟩ := mapME_ok_of hck
  have hnonempty : kronVecF (spectraOf lib kuu) ≠ [] := by
    refine kronVecF_ne_nil ?_
    intro s hs
    simp only [spectraOf, List.mem_map] at hs
    obtain ⟨kp, hkp, rfl⟩ := hs
    have h1 := List.length_pos.mpr (hC kp hkp)
    have h2 := hG kp hkp
    simp only [ne_eq, ← List.length_eq_zero, List.length_take]
    omega
  simp only [detKxx]
  rw [hbs, exBindOk]
  rcases hsort : sortF (kronVecF (spectraOf lib kuu)) with _ | ⟨l0, rest⟩
  · have hp := sortF_perm (kronVecF (spectraOf lib kuu))
    rw [hsort] at hp
    exact absurd hp.nil_eq.symm hnonempty
  · cases hfin : l0.isFinite with
    | false =>
      have hl0 : l0 = FloatQ.nan := by
        cases l0
        · simp [FloatQ.isFinite] at hfin
        · rfl
      subst hl0
      have hmem : FloatQ.nan ∈ kronVecF (spectraOf lib kuu) :=
        (sortF_perm _).mem_iff.mp (by rw [hsort]; exact List.mem_cons_self _ _)
      exact ⟨fun _ => ⟨FloatQ.nan, hmem, rfl⟩, fun _ => rfl⟩
    | true =>
      have hnone : ¬∃ a ∈ kronVecF (spectraOf lib kuu), a.isFinite = false := by
        rintro ⟨a, ha, hafin⟩
        have hanan : a = FloatQ.nan := by
          cases a
          · simp [FloatQ.isFinite] at hafin
          · rfl
        subst hanan
        have hmem : FloatQ.nan ∈ sortF (kronVecF (spectraOf lib kuu)) :=
          (sortF_perm _).symm.mem_iff.mp ha
        rw [hsort] at hmem
        rcases List.mem_cons.mp hmem with h0 | hrest
        · rw [← h0] at hfin
          simp [FloatQ.isFinite] at hfin
        · have hpw := sortF_pairwise (kronVecF (spectraOf lib kuu))
          rw [hsort] at hpw
          have hle := (List.pairwise_cons.mp hpw).1 FloatQ.nan hrest
          obtain ⟨q, rfl⟩ : ∃ q, l0 = FloatQ.fin q := by
            cases l0
            · exact ⟨_, rfl⟩
            · simp [FloatQ.isFinite] at hfin
          simp [FloatQ.fleB] at hle
      simp only [hfin, Bool.not_true, Bool.false_eq_true, if_false]
      refine ⟨fun h => ?_, fun h => absurd h hnone⟩
      exfalso
      revert h
      split_ifs <;> simp

/-- C3 (witness): the amended equivalence instantiated at the concrete
spectrum [NaN, 5] with m = 2, n = 1, where both sides hold. -/
theorem c3_nan_check_witness :
    (∀ kp ∈ kuu3, (kp.data.headD []) ≠ []) ∧
    (∀ kp ∈ kuu3, (kp.data.headD []).length ≤ (nanLib.cigv (kp.data.headD [])).length) ∧
    (detKxx nanLib kuu3 ((⟨2, [[1, 0]]⟩ : Mat) :: []) = Except.error DistErr.nanContamination ↔
      ∃ a ∈ kronVecF (spectraOf nanLib kuu3), a.isFinite = false) :=
  ⟨by decide, by decide,
   c3_det_kxx_nan_check_precedes_drop nanLib kuu3 ⟨2, [[1, 0]]⟩ [] (by decide) (by decide)⟩

/-- C9 (witness): the grid-sizing behaviour at concrete inputs: an input with
zero parts is rejected with `EmptyData`, and a single two-dimensional input
yields two axes of max(⌊1/4⌋, 2) = 2 inducing points each. -/
theorem c9_grid_sizing_witness :
    wxU [[]] = Except.error DistErr.emptyData ∧
    (wxU [[[0, 5]]]).map (fun wxu =>
        (wxu.2.axes.length,
         wxu.2.axes.all (fun ax =>
           ax.length = Nat.max (([[[0, 5]]] : List CPoint).length / 2 ^ dataLen [[0, 5]]) 2 ∧
             2 ≤ ax.length)))
      = Except.ok (dataLen [[0, 5]], true) :=
  ⟨c9_wx_u_grid_sizing.1 [] [] (Or.inl rfl),
   c9_wx_u_grid_sizing.2 [[0, 5]] [] (by decide) (by decide)⟩

/-- Inversion of a successful `Except` bind. -/
theorem exBindEqOk {ε α β : Type} {x : Except ε α} {f : α → Except ε β} {b : β} :
    x >>= f = Except.ok b ↔ ∃ a, x = Except.ok a ∧ f a = Except.ok b := by
  cases x with
  | error e => simp [Bind.bind, Except.bind]
  | ok a => simp [Bind.bind, Except.bind]

/-- The first column recovered by `Matrix::from(r, l)` is the first `r`
elements of the flattening. -/
theorem chunkCols_getD_zero (r : ℕ) (l : List ℚ) :
    (Mat.chunkCols r l).getD 0 [] = l.take r := by
  cases l with
  | nil => cases r <;> simp [Mat.chunkCols, Mat.chunkAux]
  | cons x xs =>
    by_cases hr : r = 0
    · subst hr; simp [Mat.chunkCols, Mat.chunkAux]
    · simp [Mat.chunkCols, Mat.chunkAux, List.length_cons, hr]

/-- Reading inside the taken prefix agrees with the original list. -/
theorem getD_take_of_lt {l : List ℚ} {r k : ℕ} (h : k < r) :
    (l.take r).getD k 0 = l.getD k 0 := by
  induction l generalizing r k with
  | nil => simp
  | cons x xs ih =>
    cases r with
    | zero => omega
    | succ r' =>
      cases k with
      | zero => simp
      | succ k' => simpa using ih (Nat.lt_of_succ_lt_succ h)

/-- Reading a mapped range list inside bounds. -/
theorem getD_range_map {α : Type} (f : ℕ → α) {n j : ℕ} (d : α) (h : j < n) :
    ((List.range n).map f).getD j d = f j := by
  rw [List.getD_eq_getElem?_getD, List.getElem?_map, List.getElem?_range h]
  rfl

/-- Reading a mapped range list out of bounds gives the default. -/
theorem getD_range_map_ge {α : Type} (f : ℕ → α) {n j : ℕ} (d : α) (h : ¬j < n) :
    ((List.range n).map f).getD j d = d := by
  rw [List.getD_eq_getElem?_getD, List.getElem?_map,
    List.getElem?_eq_none (by simpa using Nat.le_of_not_lt h)]
  rfl

/-- The (0,0) entry of (column vector)ᵗ · B is the dot product of the vector
with the first column of B. -/
theorem mmul_tr_colMat_entry (v : List ℚ) (B : Mat) :
    (Mat.mmul (Mat.tr (Mat.colMat v)) B).entry 0 0
      = ∑ j ∈ Finset.range v.length, v.getD j 0 * (B.data.getD 0 []).getD j 0 := by
  cases hB : B.data with
  | nil =>
    have hL : (Mat.mmul (Mat.tr (Mat.colMat v)) B).entry 0 0 = 0 := by
      simp [Mat.mmul, Mat.entry, hB]
    rw [hL]
    refine (Finset.sum_eq_zero ?_).symm
    intro j _
    simp
  | cons c cs =>
    simp only [Mat.mmul, Mat.entry, hB, List.map_cons]
    show ((Mat.tr (Mat.colMat v)).matVecL c).getD 0 0 = _
    simp only [Mat.matVecL, Mat.tr, Mat.colMat]
    rw [getD_range_map _ _ (by simp)]
    simp only [List.length_map, List.length_range]
    refine Finset.sum_congr rfl ?_
    intro j hj
    simp only [Finset.mem_range] at hj
    congr 1
    show (Mat.tr (Mat.colMat v)).entry 0 j = v.getD j 0
    simp only [Mat.tr, Mat.colMat, Mat.entry]
    rw [getD_range_map _ _ hj]
    rfl

/-- Reassembling the conjugate-gradient solution through
`Matrix::from(v.rows(), ...)` does not change the quadratic form read off its
first column. -/
theorem recompute_entry_eq (v uvec : List ℚ) :
    (Mat.mmul (Mat.tr (Mat.colMat v)) (Mat.fromCm (Mat.colMat v).rows uvec)).entry 0 0
      = (Mat.mmul (Mat.tr (Mat.colMat v)) (Mat.colMat uvec)).entry 0 0 := by
  rw [mmul_tr_colMat_entry, mmul_tr_colMat_entry]
  refine Finset.sum_congr rfl ?_
  intro j hj
  simp only [Finset.mem_range] at hj
  congr 1
  show ((Mat.chunkCols (Mat.colMat v).rows uvec).getD 0 []).getD j 0 = uvec.getD j 0
  rw [chunkCols_getD_zero]
  exact getD_take_of_lt (by simpa [Mat.colMat] using hj)

/-- `sigma_inv_mul` on a single-column right-hand side runs one
conjugate-gradient solve and reassembles it through `Matrix::from`. -/
theorem kissSigmaInvMul_single (lib : LinAlgLib) (e : KissEngine) (w uvec : List ℚ)
    (h : lib.posvCgm (fun v => wxtKuuWxMul v e.wx e.kuu) w KCap = Except.ok uvec) :
    kissSigmaInvMul lib e (Mat.colMat w) = Except.ok (Mat.fromCm w.length uvec) := by
  unfold kissSigmaInvMul
  simp only [Mat.colMat, List.length_singleton, List.range_succ, List.range_zero,
    List.nil_append, mapME, List.getD_cons_zero]
  rw [h]
  show Except.ok (Mat.fromCm w.length ([uvec].flatten)) = Except.ok (Mat.fromCm w.length uvec)
  rw [List.flatten_cons, List.flatten_nil, List.append_nil]

/-- C6: for both engines, the Mahalanobis distance stored at construction
equals (y−ȳ)ᵗ·apply_inverse(y−ȳ) recomputed through the engine's own
`sigma_inv_mul` on the centered observations — exactly, because the exact
engine repeats the same two triangular solves, and the structured engine's
query-time conjugate-gradient solve runs the same routine against the same
stored operator, right-hand side and iteration cap `K` as at construction,
reproducing the construction-time solution `u`. -/
theorem c6_mahalanobis_recompute :
    (∀ (α : Type) (lib : LinAlgLib) (base : ExactBase α) (y : List ℚ) (e : ExactEngine α),
      exactNew lib base y = Except.ok e →
      ∃ M, exactSigmaInvMul e (Mat.colMat (yEy y (ey y))) = Except.ok M ∧
        e.mahalanobisSq = (Mat.mmul (Mat.tr (Mat.colMat (yEy y (ey y)))) M).entry 0 0) ∧
    (∀ (lib : LinAlgLib) (base : KissBase) (y : List ℚ) (e : KissEngine),
      kissLoveNew lib base y = Except.ok e →
      ∃ M, kissSigmaInvMul lib e (Mat.colMat (yEy y (ey y))) = Except.ok M ∧
        e.mahalanobisSq = (Mat.mmul (Mat.tr (Mat.colMat (yEy y (ey y)))) M).entry 0 0) := by
  constructor
  · intro α lib base y e h
    simp only [exactNew] at h
    by_cases h0 : y.length = 0
    · rw [if_pos h0] at h
      exact Except.noConfusion h
    rw [if_neg h0] at h
    by_cases h1 : ¬y.length = base.x.length
    · rw [if_pos h1] at h
      exact Except.noConfusion h
    rw [if_neg h1] at h
    obtain ⟨L, hL, hpure⟩ := exBindEqOk.mp h
    obtain rfl := (Except.ok.inj hpure)
    exact ⟨_, rfl, rfl⟩
  · intro lib base y e h
    simp only [kissLoveNew] at h
    by_cases h0 : y.length = 0
    · rw [if_pos h0] at h
      exact Except.noConfusion h
    rw [if_neg h0] at h
    by_cases h1 : ¬y.length = base.x.length
    · rw [if_pos h1] at h
      exact Except.noConfusion h
    rw [if_neg h1] at h
    obtain ⟨⟨wx, u⟩, hwx, h⟩ := exBindEqOk.mp h
    obtain ⟨lkuu, hlkuu, h⟩ := exBindEqOk.mp h
    obtain ⟨uvec, hcg, h⟩ := exBindEqOk.mp h
    obtain ⟨a, ha, h⟩ := exBindEqOk.mp h
    obtain ⟨⟨q, t⟩, hqt, h⟩ := exBindEqOk.mp h
    obtain ⟨⟨l, d⟩, hld, h⟩ := exBindEqOk.mp h
    obtain ⟨s, hs, h⟩ := exBindEqOk.mp h
    obtain ⟨kxxDet, hdet, hpure⟩ := exBindEqOk.mp h
    obtain rfl := (Except.ok.inj hpure)
    rw [show (Mat.colMat (yEy y (ey y))).vecOf = yEy y (ey y) by
      simp [Mat.vecOf, Mat.colMat]] at hcg
    refine ⟨Mat.fromCm (yEy y (ey y)).length uvec,
      kissSigmaInvMul_single lib _ _ uvec hcg, ?_⟩
    show (Mat.mmul (Mat.tr (Mat.colMat (yEy y (ey y)))) (Mat.colMat uvec)).entry 0 0 = _
    have := recompute_entry_eq (yEy y (ey y)) uvec
    rw [show (Mat.colMat (yEy y (ey y))).rows = (yEy y (ey y)).length from rfl] at this
    rw [this]

/-- A successful computation equals `ok` of its extracted value. -/
theorem exceptEqOkOfIsSome {ε α : Type} (x : Except ε α) (h : x.toOption.isSome) :
    x = Except.ok (x.toOption.get h) := by
  cases x with
  | error e => exact absurd h (by simp [Except.toOption])
  | ok a => rfl

/-- C6 (witness): the recomputation identity at the concrete engines built
from y = [1, 3]. -/
theorem c6_mahalanobis_witness :
    (∃ M, exactSigmaInvMul exEng1 (Mat.colMat (yEy [1, 3] (ey [1, 3]))) = Except.ok M ∧
      exEng1.mahalanobisSq
        = (Mat.mmul (Mat.tr (Mat.colMat (yEy [1, 3] (ey [1, 3])))) M).entry 0 0) ∧
    (∃ M, kissSigmaInvMul dummyLib kissEng2 (Mat.colMat (yEy [1, 3] (ey [1, 3])))
        = Except.ok M ∧
      kissEng2.mahalanobisSq
        = (Mat.mmul (Mat.tr (Mat.colMat (yEy [1, 3] (ey [1, 3])))) M).entry 0 0) :=
  ⟨c6_mahalanobis_recompute.1 ℚ dummyLib exBase1 [1, 3] exEng1
      (exceptEqOkOfIsSome _ (by decide)),
   c6_mahalanobis_recompute.2 dummyLib kissBase2 [1, 3] kissEng2
      (exceptEqOkOfIsSome _ (by decide))⟩

/-- With well-formed storage, the transpose swaps the index roles. -/
theorem entry_tr (A : Mat) (hWF : Mat.WF A) (i j : ℕ) :
    (Mat.tr A).entry i j = A.entry j i := by
  unfold Mat.tr Mat.entry
  by_cases hj : j < A.rows
  · rw [getD_range_map _ _ hj]
    by_cases hi : i < A.data.length
    · simp [List.getD_eq_getElem?_getD, List.getElem?_map, List.getElem?_eq_getElem hi]
    · rw [List.getD_eq_default _ _ (by simpa using Nat.le_of_not_lt hi)]
      rw [show A.data.getD i [] = ([] : List ℚ) from
        List.getD_eq_default _ _ (Nat.le_of_not_lt hi)]
      simp
  · rw [getD_range_map_ge _ _ hj, List.getD_nil]
    by_cases hi : i < A.data.length
    · have hmem : A.data.getD i [] ∈ A.data := by
        rw [List.getD_eq_getElem?_getD, List.getElem?_eq_getElem hi]
        exact List.getElem_mem hi
      rw [show (A.data.getD i []).getD j 0 = 0 from
        List.getD_eq_default _ _ (by rw [hWF _ hmem]; exact Nat.le_of_not_lt hj)]
    · rw [show A.data.getD i [] = ([] : List ℚ) from
        List.getD_eq_default _ _ (Nat.le_of_not_lt hi)]
      simp

/-- Transposes are always well formed: every stored column is a row of the
argument, of length equal to the number of stored columns. -/
theorem WF_tr (A : Mat) : Mat.WF (Mat.tr A) := by
  intro c hc
  simp only [Mat.tr, List.mem_map] at hc
  obtain ⟨r, _, rfl⟩ := hc
  simp [Mat.tr]

/-- The forward-substitution worker produces one entry per step. -/
theorem fwdAux_length (L : Mat) (b : List ℚ) (i : ℕ) : (fwdAux L b i).length = i := by
  induction i with
  | zero => rfl
  | succ i ih => simp [fwdAux, ih]

/-- Entries already produced are unchanged by further steps. -/
theorem fwdAux_getD_stable (L : Mat) (b : List ℚ) {j i i' : ℕ} (hj : j < i) (hii : i ≤ i') :
    (fwdAux L b i').getD j 0 = (fwdAux L b i).getD j 0 := by
  induction i' with
  | zero => omega
  | succ i' ih =>
    rcases Nat.lt_or_ge i (i' + 1) with hlt | hge
    · have hle : i ≤ i' := by omega
      rw [← ih hle]
      show (fwdAux L b i' ++ [_]).getD j 0 = _
      rw [List.getD_append _ _ _ _ (by rw [fwdAux_length]; omega)]
    · have : i = i' + 1 := by omega
      subst this
      rfl

/-- The defining equation of the entry produced at step `j`. -/
theorem fwdAux_getD_succ (L : Mat) (b : List ℚ) (j : ℕ) :
    (fwdAux L b (j + 1)).getD j 0
      = (b.getD j 0 - ∑ k ∈ Finset.range j, L.entry j k * (fwdAux L b j).getD k 0)
        / L.entry j j := by
  show (fwdAux L b j ++ [_]).getD j 0 = _
  have hlen : (fwdAux L b j).length = j := fwdAux_length L b j
  rw [List.getD_append_right _ _ _ _ hlen.le, hlen]
  simp

/-- Correctness of forward substitution: the computed vector solves every row
of the lower-triangular system. -/
theorem fwd_correct (L : Mat) (b : List ℚ)
    (hLT : ∀ i j, i < j → L.entry i j = 0)
    (hDZ : ∀ i, i < L.rows → L.entry i i ≠ 0) :
    ∀ i, i < L.rows →
      ∑ j ∈ Finset.range L.rows, L.entry i j * (fwdSolve L b).getD j 0 = b.getD i 0 := by
  intro i hi
  simp only [fwdSolve]
  have hzero : ∀ j ∈ Finset.range L.rows, j ∉ Finset.range (i + 1) →
      L.entry i j * (fwdAux L b L.rows).getD j 0 = 0 := by
    intro j hj hj2
    have hij : i < j := by
      simp only [Finset.mem_range] at hj hj2
      omega
    rw [hLT i j hij, zero_mul]
  rw [← Finset.sum_subset (Finset.range_subset.mpr (by omega)) hzero]
  rw [Finset.sum_range_succ]
  rw [show (fwdAux L b L.rows).getD i 0 = (fwdAux L b (i + 1)).getD i 0 from
    fwdAux_getD_stable L b (Nat.lt_succ_self i) (by omega)]
  rw [fwdAux_getD_succ]
  rw [mul_comm, div_mul_cancel₀ _ (hDZ i hi)]
  have hsum : ∑ j ∈ Finset.range i, L.entry i j * (fwdAux L b L.rows).getD j 0
      = ∑ k ∈ Finset.range i, L.entry i k * (fwdAux L b i).getD k 0 := by
    refine Finset.sum_congr rfl ?_
    intro k hk
    simp only [Finset.mem_range] at hk
    rw [show (fwdAux L b L.rows).getD k 0 = (fwdAux L b i).getD k 0 from
      fwdAux_getD_stable L b hk (by omega)]
  rw [hsum]
  ring

/-- Row sums against a lower-triangular matrix with non-vanishing diagonal
determine the vector entries. -/
theorem lower_row_inj (L : Mat)
    (hLT : ∀ i j, i < j → L.entry i j = 0)
    (hDZ : ∀ i, i < L.rows → L.entry i i ≠ 0) (w w' : List ℚ)
    (h : ∀ i, i < L.rows →
      ∑ j ∈ Finset.range L.rows, L.entry i j * w.getD j 0
        = ∑ j ∈ Finset.range L.rows, L.entry i j * w'.getD j 0) :
    ∀ i, i < L.rows → w.getD i 0 = w'.getD i 0 := by
  intro i
  induction i using Nat.strong_induction_on with
  | _ i ih =>
    intro hi
    have hh := h i hi
    have restrict : ∀ v : List ℚ,
        ∑ j ∈ Finset.range L.rows, L.entry i j * v.getD j 0
          = ∑ j ∈ Finset.range (i + 1), L.entry i j * v.getD j 0 := by
      intro v
      symm
      refine Finset.sum_subset (Finset.range_subset.mpr (by omega)) ?_
      intro j hj hj2
      have hij : i < j := by
        simp only [Finset.mem_range] at hj hj2
        omega
      rw [hLT i j hij, zero_mul]
    rw [restrict w, restrict w', Finset.sum_range_succ, Finset.sum_range_succ] at hh
    have heq : ∑ j ∈ Finset.range i, L.entry i j * w.getD j 0
        = ∑ j ∈ Finset.range i, L.entry i j * w'.getD j 0 := by
      refine Finset.sum_congr rfl ?_
      intro j hj
      simp only [Finset.mem_range] at hj
      rw [ih j hj (by omega)]
    rw [heq] at hh
    exact mul_left_cancel₀ (hDZ i hi) (add_left_cancel hh)

/-- Reading a reversed list inside bounds. -/
theorem getD_reverse_of_lt {α : Type} (l : List α) (d : α) {i : ℕ} (h : i < l.length) :
    l.reverse.getD i d = l.getD (l.length - 1 - i) d := by
  rw [List.getD_eq_getElem?_getD, List.getElem?_reverse h, ← List.getD_eq_getElem?_getD]

/-- The antidiagonal reversal swaps entries within bounds. -/
theorem entry_flip (A : Mat) (hWF : Mat.WF A) (hsq : A.data.length = A.rows)
    {i j : ℕ} (hi : i < A.rows) (hj : j < A.rows) :
    (flipM A).entry i j = A.entry (A.rows - 1 - i) (A.rows - 1 - j) := by
  unfold flipM Mat.entry
  have hlenmap : (A.data.map List.reverse).length = A.rows := by simpa using hsq
  rw [getD_reverse_of_lt _ _ (by rw [hlenmap]; exact hj), hlenmap]
  have hidx : A.rows - 1 - j < A.data.length := by omega
  rw [show (List.map List.reverse A.data).getD (A.rows - 1 - j) []
      = (A.data[A.rows - 1 - j]).reverse from by
    rw [List.getD_eq_getElem?_getD, List.getElem?_map, List.getElem?_eq_getElem hidx]
    rfl]
  have hclen : (A.data[A.rows - 1 - j]).length = A.rows := hWF _ (List.getElem_mem hidx)
  rw [getD_reverse_of_lt _ _ (by rw [hclen]; exact hi), hclen]
  rw [show A.data.getD (A.rows - 1 - j) [] = A.data[A.rows - 1 - j] from by
    rw [List.getD_eq_getElem?_getD, List.getElem?_eq_getElem hidx]
    rfl]

/-- The reversal of an upper-triangular square matrix is lower-triangular. -/
theorem flip_lower (U : Mat) (hWF : Mat.WF U) (hsq : U.data.length = U.rows)
    (hUT : ∀ i j, j < i → U.entry i j = 0) :
    ∀ i j, i < j → (flipM U).entry i j = 0 := by
  intro i j hij
  by_cases hj : j < U.rows
  · have hi : i < U.rows := lt_trans hij hj
    rw [entry_flip U hWF hsq hi hj]
    exact hUT _ _ (by omega)
  · unfold flipM Mat.entry
    rw [show ((U.data.map List.reverse).reverse).getD j [] = [] from
      List.getD_eq_default _ _ (by simpa [hsq] using Nat.le_of_not_lt hj)]
    simp

/-- The reversal keeps the diagonal non-vanishing. -/
theorem flip_diag (U : Mat) (hWF : Mat.WF U) (hsq : U.data.length = U.rows)
    (hDZ : ∀ i, i < U.rows → U.entry i i ≠ 0) :
    ∀ i, i < (flipM U).rows → (flipM U).entry i i ≠ 0 := by
  intro i hi
  have hi' : i < U.rows := hi
  rw [entry_flip U hWF hsq hi' hi']
  exact hDZ _ (by omega)

/-- A row sum of `U` against an antidiagonally reversed vector is a row sum
of the reversed matrix against the vector itself. -/
theorem rowsum_revmap (U : Mat) (hWF : Mat.WF U) (hsq : U.data.length = U.rows)
    (w : List ℚ) (i : ℕ) (hi : i < U.rows) :
    ∑ j ∈ Finset.range U.rows, U.entry i j
        * ((List.range U.rows).map (fun k => w.getD (U.rows - 1 - k) 0)).getD j 0
      = ∑ j ∈ Finset.range U.rows, (flipM U).entry (U.rows - 1 - i) j * w.getD j 0 := by
  rw [← Finset.sum_range_reflect
    (fun j => (flipM U).entry (U.rows - 1 - i) j * w.getD j 0) U.rows]
  refine Finset.sum_congr rfl ?_
  intro j hj
  simp only [Finset.mem_range] at hj
  rw [getD_range_map _ _ hj]
  rw [entry_flip U hWF hsq (by omega) (by omega)]
  congr 2 <;> omega

/-- A row sum of the reversed matrix against a reversed vector is a row sum
of the original matrix. -/
theorem flip_rowsum (U : Mat) (hWF : Mat.WF U) (hsq : U.data.length = U.rows)
    (v : List ℚ) (i : ℕ) (hi : i < U.rows) :
    ∑ j ∈ Finset.range U.rows, (flipM U).entry i j
        * ((List.range U.rows).map (fun k => v.getD (U.rows - 1 - k) 0)).getD j 0
      = ∑ j ∈ Finset.range U.rows, U.entry (U.rows - 1 - i) j * v.getD j 0 := by
  rw [← Finset.sum_range_reflect
    (fun j => U.entry (U.rows - 1 - i) j * v.getD j 0) U.rows]
  refine Finset.sum_congr rfl ?_
  intro j hj
  simp only [Finset.mem_range] at hj
  rw [getD_range_map _ _ hj]
  rw [entry_flip U hWF hsq hi hj]

/-- Correctness of backward substitution: the computed vector solves every
row of the upper-triangular system. -/
theorem bwd_correct (U : Mat) (c : List ℚ)
    (hWF : Mat.WF U) (hsq : U.data.length = U.rows)
    (hUT : ∀ i j, j < i → U.entry i j = 0)
    (hDZ : ∀ i, i < U.rows → U.entry i i ≠ 0) :
    ∀ i, i < U.rows →
      ∑ j ∈ Finset.range U.rows, U.entry i j * (bwdSolve U c).getD j 0 = c.getD i 0 := by
  intro i hi
  have hb : bwdSolve U c = (List.range U.rows).map (fun k =>
      (fwdSolve (flipM U)
        ((List.range U.rows).map (fun j => c.getD (U.rows - 1 - j) 0))).getD
        (U.rows - 1 - k) 0) := rfl
  rw [hb, rowsum_revmap U hWF hsq _ i hi]
  have hfc := fwd_correct (flipM U)
    ((List.range U.rows).map (fun j => c.getD (U.rows - 1 - j) 0))
    (flip_lower U hWF hsq hUT) (flip_diag U hWF hsq hDZ) (U.rows - 1 - i)
    (show U.rows - 1 - i < (flipM U).rows from by
      show U.rows - 1 - i < U.rows
      omega)
  have hrows : (flipM U).rows = U.rows := rfl
  rw [hrows] at hfc
  rw [hfc, getD_range_map _ _ (show U.rows - 1 - i < U.rows by omega)]
  congr 1
  omega

/-- Row sums against an upper-triangular matrix with non-vanishing diagonal
determine the vector entries. -/
theorem upper_row_inj (U : Mat) (hWF : Mat.WF U) (hsq : U.data.length = U.rows)
    (hUT : ∀ i j, j < i → U.entry i j = 0)
    (hDZ : ∀ i, i < U.rows → U.entry i i ≠ 0) (x x' : List ℚ)
    (h : ∀ i, i < U.rows →
      ∑ j ∈ Finset.range U.rows, U.entry i j * x.getD j 0
        = ∑ j ∈ Finset.range U.rows, U.entry i j * x'.getD j 0) :
    ∀ i, i < U.rows → x.getD i 0 = x'.getD i 0 := by
  intro i hi
  have hinj := lower_row_inj (flipM U) (flip_lower U hWF hsq hUT) (flip_diag U hWF hsq hDZ)
    ((List.range U.rows).map (fun k => x.getD (U.rows - 1 - k) 0))
    ((List.range U.rows).map (fun k => x'.getD (U.rows - 1 - k) 0))
    (by
      intro i' hi'
      have hi'' : i' < U.rows := hi'
      have h1 := flip_rowsum U hWF hsq x i' hi''
      have h2 := flip_rowsum U hWF hsq x' i' hi''
      show ∑ j ∈ Finset.range U.rows, _ = ∑ j ∈ Finset.range U.rows, _
      rw [h1, h2]
      exact h _ (by omega))
    (U.rows - 1 - i) (show U.rows - 1 - i < (flipM U).rows from by
      show U.rows - 1 - i < U.rows
      omega)
  rw [getD_range_map _ _ (show U.rows - 1 - i < U.rows by omega),
    getD_range_map _ _ (show U.rows - 1 - i < U.rows by omega)] at hinj
  have heq : U.rows - 1 - (U.rows - 1 - i) = i := by omega
  rw [heq] at hinj
  exact hinj

/-- Entry formula for the matrix product, within bounds. -/
theorem entry_mmul (A B : Mat) {i j : ℕ} (hi : i < A.rows) (hj : j < B.data.length) :
    (Mat.mmul A B).entry i j
      = ∑ k ∈ Finset.range A.data.length, A.entry i k * B.entry k j := by
  show ((B.data.map A.matVecL).getD j []).getD i 0 = _
  rw [show (B.data.map A.matVecL).getD j [] = A.matVecL (B.data.getD j []) from by
    rw [List.getD_eq_getElem?_getD, List.getElem?_map, List.getElem?_eq_getElem hj]
    rw [List.getD_eq_getElem?_getD B.data, List.getElem?_eq_getElem hj]
    rfl]
  unfold Mat.matVecL
  rw [getD_range_map _ _ hi]
  rfl

/-- The boolean lower-triangularity check certifies vanishing above the
diagonal at all index pairs (entries outside the stored ranges are 0). -/
theorem lowerTriB_spec (A : Mat) (hWF : Mat.WF A) (h : Mat.LowerTriB A = true) :
    ∀ i j, i < j → A.entry i j = 0 := by
  intro i j hij
  by_cases hj : j < A.data.length
  · by_cases hi : i < A.rows
    · unfold Mat.LowerTriB at h
      rw [List.all_eq_true] at h
      have h1 := h i (List.mem_range.mpr hi)
      rw [List.all_eq_true] at h1
      exact of_decide_eq_true (h1 j (List.mem_range.mpr hj)) hij
    · have hmem : A.data.getD j [] ∈ A.data := by
        rw [List.getD_eq_getElem?_getD, List.getElem?_eq_getElem hj]
        exact List.getElem_mem hj
      exact List.getD_eq_default _ _ (by rw [hWF _ hmem]; omega)
  · unfold Mat.entry
    rw [show A.data.getD j [] = ([] : List ℚ) from List.getD_eq_default _ _ (by omega),
      List.getD_nil]

/-- The boolean positive-diagonal check certifies a non-vanishing diagonal. -/
theorem posDiagB_spec (A : Mat) (h : Mat.PosDiagB A = true) :
    ∀ i, i < A.rows → A.entry i i ≠ 0 := by
  intro i hi
  unfold Mat.PosDiagB at h
  rw [List.all_eq_true] at h
  exact (of_decide_eq_true (h i (List.mem_range.mpr hi))).ne'

/-- Lists of equal length with equal reads are equal. -/
theorem list_eq_of_getD {l l' : List ℚ} (hlen : l.length = l'.length)
    (h : ∀ i, i < l.length → l.getD i 0 = l'.getD i 0) : l = l' := by
  apply List.ext_getElem hlen
  intro i h1 h2
  have hh := h i h1
  rw [List.getD_eq_getElem?_getD, List.getElem?_eq_getElem h1,
    List.getD_eq_getElem?_getD, List.getElem?_eq_getElem h2] at hh
  simpa using hh

/-- Round trip of the two triangular solves: applying `potrs` through a
lower-triangular factor `L` with non-vanishing diagonal to `(L·Lᵗ)·v`
recovers `v`. -/
theorem potrs_round_trip (L : Mat) (hWF : Mat.WF L) (hsq : L.data.length = L.rows)
    (hLT : ∀ i j, i < j → L.entry i j = 0)
    (hDZ : ∀ i, i < L.rows → L.entry i i ≠ 0)
    (v : List ℚ) (hlen : v.length = L.rows) :
    potrsCol L (Mat.matVecL (Mat.mmul L (Mat.tr L)) v) = v := by
  have hUdl : (Mat.tr L).data.length = L.rows := by simp [Mat.tr]
  have hUrows : (Mat.tr L).rows = L.rows := hsq
  have hUWF : Mat.WF (Mat.tr L) := WF_tr L
  have hUsq : (Mat.tr L).data.length = (Mat.tr L).rows := by rw [hUdl, hUrows]
  have hUT : ∀ i j, j < i → (Mat.tr L).entry i j = 0 := fun i j hji => by
    rw [entry_tr L hWF]
    exact hLT j i hji
  have hUDZ : ∀ i, i < (Mat.tr L).rows → (Mat.tr L).entry i i ≠ 0 := fun i hi => by
    rw [entry_tr L hWF]
    exact hDZ i (by omega)
  set c := Mat.matVecL (Mat.mmul L (Mat.tr L)) v with hc
  -- the right-hand side entries: c_i = Σ_k L_ik · (Σ_j Lᵗ_kj v_j)
  have hcent : ∀ i, i < L.rows → c.getD i 0
      = ∑ k ∈ Finset.range L.rows, L.entry i k *
          (∑ j ∈ Finset.range L.rows, (Mat.tr L).entry k j * v.getD j 0) := by
    intro i hi
    have h1 : c.getD i 0 = ∑ j ∈ Finset.range ((Mat.mmul L (Mat.tr L)).data.length),
        (Mat.mmul L (Mat.tr L)).entry i j * v.getD j 0 := by
      rw [hc]
      exact getD_range_map _ _ hi
    have hmdl : (Mat.mmul L (Mat.tr L)).data.length = L.rows := by
      simp [Mat.mmul, Mat.tr]
    rw [h1, hmdl]
    have h2 : ∀ j ∈ Finset.range L.rows, (Mat.mmul L (Mat.tr L)).entry i j * v.getD j 0
        = ∑ k ∈ Finset.range L.rows, L.entry i k * (Mat.tr L).entry k j * v.getD j 0 := by
      intro j hj
      simp only [Finset.mem_range] at hj
      rw [entry_mmul L (Mat.tr L) hi (by rw [hUdl]; exact hj), hsq, Finset.sum_mul]
    rw [Finset.sum_congr rfl h2, Finset.sum_comm]
    refine Finset.sum_congr rfl ?_
    intro k _
    rw [Finset.mul_sum]
    refine Finset.sum_congr rfl ?_
    intro j _
    ring
  -- the intermediate target list u with u_k = Σ_j Lᵗ_kj v_j
  set ulist := (List.range L.rows).map
    (fun k => ∑ j ∈ Finset.range L.rows, (Mat.tr L).entry k j * v.getD j 0) with hu
  have hul : ∀ k, k < L.rows → ulist.getD k 0
      = ∑ j ∈ Finset.range L.rows, (Mat.tr L).entry k j * v.getD j 0 := by
    intro k hk
    rw [hu]
    exact getD_range_map _ _ hk
  -- forward solve agrees with u on all entries
  have hwu : ∀ k, k < L.rows →
      (fwdSolve L c).getD k 0 = ulist.getD k 0 := by
    refine lower_row_inj L hLT hDZ _ _ ?_
    intro i hi
    rw [fwd_correct L c hLT hDZ i hi, hcent i hi]
    refine Finset.sum_congr rfl ?_
    intro k hk
    simp only [Finset.mem_range] at hk
    rw [hul k hk]
  -- backward solve agrees with v on all entries
  have hxv : ∀ i, i < L.rows → (bwdSolve (Mat.tr L) (fwdSolve L c)).getD i 0 = v.getD i 0 := by
    have hinj := upper_row_inj (Mat.tr L) hUWF hUsq hUT hUDZ
      (bwdSolve (Mat.tr L) (fwdSolve L c)) v ?_
    · intro i hi
      exact hinj i (by omega)
    · intro i hi
      have hi' : i < L.rows := by omega
      rw [bwd_correct (Mat.tr L) (fwdSolve L c) hUWF hUsq hUT hUDZ i hi]
      rw [hwu i hi', hul i hi']
      rw [show (Mat.tr L).rows = L.rows from hUrows]
  -- conclude list equality
  show bwdSolve (Mat.tr L) (fwdSolve L c) = v
  refine list_eq_of_getD ?_ ?_
  · show ((List.range (Mat.tr L).rows).map _).length = v.length
    rw [List.length_map, List.length_range, hUrows, hlen]
  · intro i hi
    have hi' : i < L.rows := by
      have : (bwdSolve (Mat.tr L) (fwdSolve L c)).length = L.rows := by
        show ((List.range (Mat.tr L).rows).map _).length = L.rows
        rw [List.length_map, List.length_range, hUrows]
      omega
    exact hxv i hi'

/-- C7: for the exact engine whose stored factor is the (lower-triangular,
positive-diagonal) Cholesky factor of the SPD covariance Σ = K_XX + σ²I,
`apply_inverse` (two triangular solves through the stored factor) is a left
inverse of multiplication by Σ: applied to Σ·v it returns v exactly. -/
theorem c7_exact_apply_inverse_round_trip
    (α : Type) (lib : LinAlgLib) (base : ExactBase α) (y : List ℚ) (e : ExactEngine α)
    (hnew : exactNew lib base y = Except.ok e)
    (hWF : Mat.WF e.lsigma) (hsq : e.lsigma.data.length = e.lsigma.rows)
    (hLT : Mat.LowerTriB e.lsigma = true) (hPD : Mat.PosDiagB e.lsigma = true)
    (hchol : Mat.mmul e.lsigma (Mat.tr e.lsigma) = sigmaOf base)
    (v : List ℚ) (hlen : v.length = e.lsigma.rows) :
    exactSigmaInvMul e (Mat.mmul (sigmaOf base) (Mat.colMat v))
      = Except.ok (Mat.colMat v) := by
  rw [← hchol]
  unfold exactSigmaInvMul
  congr 1
  show (⟨e.lsigma.rows,
      [potrsCol e.lsigma (Mat.matVecL (Mat.mmul e.lsigma (Mat.tr e.lsigma)) v)]⟩ : Mat)
    = Mat.colMat v
  rw [potrs_round_trip e.lsigma hWF hsq (lowerTriB_spec _ hWF hLT)
    (posDiagB_spec _ hPD) v hlen]
  unfold Mat.colMat
  rw [hlen]

/-- C7 (witness): the round trip at the concrete engine over exBase1 with
v = [3, 4]. -/
theorem c7_round_trip_witness :
    exactSigmaInvMul exEngChol (Mat.mmul (sigmaOf exBase1) (Mat.colMat [3, 4]))
      = Except.ok (Mat.colMat [3, 4]) :=
  c7_exact_apply_inverse_round_trip ℚ cholLib exBase1 [1, 3] exEngChol
    (exceptEqOkOfIsSome _ (by decide)) (by decide) (by decide) (by decide) (by decide)
    (by decide) [3, 4] (by decide)

/-- A product over `List.range` is a product over `Finset.range`. -/
theorem listProdRange (f : ℕ → ℚ) (n : ℕ) :
    ((List.range n).map f).prod = ∏ i ∈ Finset.range n, f i := by
  induction n with
  | zero => simp
  | succ n ih =>
    rw [List.range_succ, List.map_append, List.prod_append, Finset.prod_range_succ, ih]
    simp

/-- The determinant of L·Lᵗ for lower-triangular well-formed square L is the
squared product of the diagonal of L. -/
theorem detSq_mmul_self_tr (L : Mat) (hWF : Mat.WF L) (hsq : L.data.length = L.rows)
    (hLT : ∀ i j, i < j → L.entry i j = 0) :
    detSq (Mat.mmul L (Mat.tr L)) = (Mat.prodDiag L) ^ 2 := by
  have hUdl : (Mat.tr L).data.length = L.rows := by simp [Mat.tr]
  have hM : (Matrix.of (fun i j : Fin (Mat.mmul L (Mat.tr L)).rows =>
        (Mat.mmul L (Mat.tr L)).entry i j))
      = (Matrix.of (fun i j : Fin (Mat.mmul L (Mat.tr L)).rows => L.entry i j))
        * (Matrix.of (fun i j : Fin (Mat.mmul L (Mat.tr L)).rows => L.entry i j)).transpose := by
    ext i j
    have hi : (i : ℕ) < L.rows := i.2
    have hj : (j : ℕ) < (Mat.tr L).data.length := by
      rw [hUdl]
      exact j.2
    rw [Matrix.mul_apply]
    show (Mat.mmul L (Mat.tr L)).entry i j = _
    rw [entry_mmul L (Mat.tr L) hi hj, hsq]
    rw [← Fin.sum_univ_eq_sum_range (fun k => L.entry i k * (Mat.tr L).entry k j)]
    refine Finset.sum_congr rfl ?_
    intro k _
    rw [entry_tr L hWF]
    rfl
  show (Matrix.of (fun i j : Fin (Mat.mmul L (Mat.tr L)).rows =>
      (Mat.mmul L (Mat.tr L)).entry i j)).det = _
  rw [hM, Matrix.det_mul, Matrix.det_transpose]
  have hdet : (Matrix.of (fun i j : Fin (Mat.mmul L (Mat.tr L)).rows => L.entry i j)).det
      = Mat.prodDiag L := by
    rw [Matrix.det_of_lowerTriangular _ (by
      intro i j hij
      show L.entry i j = 0
      refine hLT i j ?_
      simpa using hij)]
    unfold Mat.prodDiag
    rw [listProdRange]
    rw [show (Mat.mmul L (Mat.tr L)).rows = L.rows from rfl]
    exact Fin.prod_univ_eq_prod_range (fun i => L.entry i i) L.rows
  rw [hdet]
  ring

/-- C8: for the exact engine, `det_sqrt` (`sigma_det_sqrt`, the triangular
determinant of the stored factor) equals the product of the diagonal entries
of the stored lower-triangular Cholesky factor of Σ = K_XX + σ²I, and its
square equals det(Σ) computed independently through mathlib's dense
determinant. -/
theorem c8_det_sqrt_diag_product
    (α : Type) (lib : LinAlgLib) (base : ExactBase α) (y : List ℚ) (e : ExactEngine α)
    (hnew : exactNew lib base y = Except.ok e)
    (hWF : Mat.WF e.lsigma) (hsq : e.lsigma.data.length = e.lsigma.rows)
    (hLT : Mat.LowerTriB e.lsigma = true)
    (hchol : Mat.mmul e.lsigma (Mat.tr e.lsigma) = sigmaOf base) :
    exactSigmaDetSqrt e = Mat.prodDiag e.lsigma ∧
    (exactSigmaDetSqrt e) ^ 2 = detSq (sigmaOf base) := by
  refine ⟨rfl, ?_⟩
  rw [← hchol, detSq_mmul_self_tr e.lsigma hWF hsq (lowerTriB_spec _ hWF hLT)]
  rfl

/-- C8 (witness): at the concrete engine over `exBase1`, det_sqrt is the
diagonal product 1·1 of the stored factor and its square is det Σ. -/
theorem c8_det_sqrt_witness :
    exactSigmaDetSqrt exEngChol = Mat.prodDiag exEngChol.lsigma ∧
    (exactSigmaDetSqrt exEngChol) ^ 2 = detSq (sigmaOf exBase1) :=
  c8_det_sqrt_diag_product ℚ cholLib exBase1 [1, 3] exEngChol
    (exceptEqOkOfIsSome _ (by decide)) (by decide) (by decide) (by decide) (by decide)
